import Mathlib

/-!
# Fluent Bit configuration validator: error extraction and dry-run orchestration

Verification development for `components/telemetry-operator/internal/fluentbit/config_validator.go`.

Go strings are modelled as lists of Unicode code points (`Str`), that is, as valid UTF-8
text; the ANSI stripping step is modelled on raw bytes as well (`stripAnsiBytes`), with Go's
rune decoding.  A Go `error` is modelled by its message.  The standard-library
regular-expression engine is modelled by a backtracking matcher with explicit
continuations, which realises the leftmost-first semantics documented for Go's `regexp`
package: among the matches starting at the leftmost possible position it returns the one a
backtracking search finds first (greedy repetition prefers more iterations, alternation
prefers its left branch).
-/

namespace Fluentbit

/-- Go `string`, as a sequence of code points. -/
abbrev Str := List Char

/-! ## Regular expressions (the fragment of RE2 syntax used by the validator) -/

/-- Abstract syntax of the regular expressions occurring in the source. -/
inductive Regex where
  /-- a literal character -/
  | chr (c : Char)
  /-- a bracket class given by inclusive ranges, possibly negated -/
  | cls (neg : Bool) (ranges : List (Char × Char))
  /-- the empty expression -/
  | eps
  /-- concatenation -/
  | seq (a b : Regex)
  /-- alternation, left branch preferred -/
  | alt (a b : Regex)
  /-- greedy repetition, zero or more -/
  | star (a : Regex)
  /-- capturing group number `i` -/
  | grp (i : Nat) (a : Regex)

/-- Membership of a character in a list of inclusive ranges. -/
def inRanges (ranges : List (Char × Char)) (x : Char) : Bool :=
  ranges.any (fun p => decide (p.1.toNat ≤ x.toNat) && decide (x.toNat ≤ p.2.toNat))

/-- Membership of a character in a (possibly negated) bracket class. -/
def inCls (neg : Bool) (ranges : List (Char × Char)) (x : Char) : Bool :=
  if neg then !(inRanges ranges x) else inRanges ranges x

/-- Recorded capture groups, most recent binding first. -/
abbrev Caps := List (Nat × Str)

/-- Greedy iteration of one matching step.  An iteration is only accepted when it consumes
input, so `n = s.length` iterations are always enough. -/
def starLoop {R : Type} (step : Str → Caps → (Str → Caps → Option R) → Option R) :
    Nat → Str → Caps → (Str → Caps → Option R) → Option R
  | 0, s, c, k => k s c
  | n + 1, s, c, k =>
    match step s c (fun s1 c1 => if s1.length < s.length then starLoop step n s1 c1 k else none) with
    | some v => some v
    | none => k s c

/-- Backtracking matcher: `matchK r s c k` matches `r` against a prefix of `s` and hands the
unconsumed rest and the captures to the continuation `k`; the first success (in priority
order) is returned. -/
def matchK {R : Type} : Regex → Str → Caps → (Str → Caps → Option R) → Option R
  | .chr x, s, c, k =>
    match s with
    | [] => none
    | y :: t => if y = x then k t c else none
  | .cls neg rs, s, c, k =>
    match s with
    | [] => none
    | y :: t => if inCls neg rs y then k t c else none
  | .eps, s, c, k => k s c
  | .seq a b, s, c, k => matchK a s c (fun s1 c1 => matchK b s1 c1 k)
  | .alt a b, s, c, k =>
    match matchK a s c k with
    | some v => some v
    | none => matchK b s c k
  | .star a, s, c, k => starLoop (matchK a) s.length s c k
  | .grp i a, s, c, k =>
    matchK a s c (fun s1 c1 => k s1 ((i, s.take (s.length - s1.length)) :: c1))

/-- Result of a successful search: text before the match, matched text, text after the match,
and the capture groups. -/
structure Match where
  before : Str
  text : Str
  after : Str
  caps : Caps

/-- Match `re` at the very start of `s`. -/
def matchAt (re : Regex) (s : Str) : Option (Str × Caps) :=
  matchK re s [] (fun s1 c1 => some (s1, c1))

/-- Leftmost match of `re` in `s`: start positions are tried from left to right. -/
def find (re : Regex) : Str → Option Match
  | [] =>
    match matchAt re [] with
    | some (rest, c) => some ⟨[], [], rest, c⟩
    | none => none
  | x :: t =>
    match matchAt re (x :: t) with
    | some (rest, c) => some ⟨[], (x :: t).take ((x :: t).length - rest.length), rest, c⟩
    | none =>
      match find re t with
      | some m => some ⟨x :: m.before, m.text, m.after, m.caps⟩
      | none => none

/-- Text of capture group `i` (empty when the group did not take part in the match). -/
def capture (c : Caps) (i : Nat) : Str :=
  match c.find? (fun p => p.1 == i) with
  | some p => p.2
  | none => []

/-- Go `(*Regexp).FindStringSubmatch` for an expression with `n` groups: `none` is Go's `nil`
slice, otherwise entry 0 is the whole match and entry `i` the text of group `i`. -/
def FindStringSubmatch (re : Regex) (n : Nat) (s : Str) : Option (List Str) :=
  match find re s with
  | some m => some (m.text :: (List.range n).map (fun i => capture m.caps (i + 1)))
  | none => none

/-- Go `(*Regexp).FindString`: the leftmost match, or the empty string. -/
def FindString (re : Regex) (s : Str) : Str :=
  match find re s with
  | some m => m.text
  | none => []

/-- Go `(*Regexp).ReplaceAllString` with an empty replacement, for an expression that has no
empty match: successive leftmost non-overlapping matches are deleted. -/
def ReplaceAllEmpty (re : Regex) : Nat → Str → Str
  | 0, s => s
  | n + 1, s =>
    match find re s with
    | none => s
    | some m => m.before ++ ReplaceAllEmpty re n m.after

/-! ## The expressions of `config_validator.go` -/

/-- Literal text as a regular expression. -/
def lit : Str → Regex
  | [] => .eps
  | [x] => .chr x
  | x :: y :: t => .seq (.chr x) (lit (y :: t))

/-- The expression `.`: any character but newline. -/
def dot : Regex := .cls true [('\n', '\n')]

/-- The expression `\d`. -/
def digit : Regex := .cls false [('0', '9')]

/-- The expression `\s`, that is `[\t\n\f\r ]`. -/
def space : Regex := .cls false [('\t', '\n'), ('\x0c', '\r'), (' ', ' ')]

/-- One or more, greedy. -/
def plus (a : Regex) : Regex := .seq a (.star a)

/-- Zero or one, preferring one. -/
def opt (a : Regex) : Regex := .alt a .eps

/-- The class `[a-zA-Z\d]`. -/
def alnum : Regex := .cls false [('a', 'z'), ('A', 'Z'), ('0', '9')]

/-- The constant `ansiColorsRegex`:
`[\u001B\u009B][[\]()#;?]*(?:(?:(?:[a-zA-Z\d]*(?:;[a-zA-Z\d]*)*)?\u0007)|(?:(?:\d{1,4}(?:;\d{0,4})*)?[\dA-PRZcf-ntqry=><~]))` -/
def ansiColorsRegex : Regex :=
  .seq (.cls false [('\x1b', '\x1b'), ('\u009b', '\u009b')])
    (.seq (.star (.cls false [('[', '['), (']', ']'), ('(', '('), (')', ')'), ('#', '#'),
        (';', ';'), ('?', '?')]))
      (.alt
        (.seq (opt (.seq (.star alnum) (.star (.seq (.chr ';') (.star alnum))))) (.chr '\x07'))
        (.seq
          (opt (.seq
            (.seq digit (opt (.seq digit (opt (.seq digit (opt digit))))))
            (.star (.seq (.chr ';') (opt (.seq digit (opt (.seq digit (opt (.seq digit (opt digit)))))))))))
          (.cls false [('0', '9'), ('A', 'P'), ('R', 'R'), ('Z', 'Z'), ('c', 'c'), ('f', 'n'),
            ('t', 't'), ('q', 'q'), ('r', 'r'), ('y', 'y'), ('=', '='), ('>', '>'), ('<', '<'),
            ('~', '~')]))))

/-- The expression `r1`: `(?P<description>Error[^\]].+)\n(?P<label>Error:.+)` -/
def r1 : Regex :=
  .seq (.grp 1 (.seq (lit "Error".toList) (.seq (.cls true [(']', ']')]) (plus dot))))
    (.seq (.chr '\n') (.grp 2 (.seq (lit "Error:".toList) (plus dot))))

/-- The expression `r2`: `.*(?P<label>Error:\s)(?P<description>.+\.)` -/
def r2 : Regex :=
  .seq (.star dot)
    (.seq (.grp 1 (.seq (lit "Error:".toList) space)) (.grp 2 (.seq (plus dot) (.chr '.'))))

/-- The expression `r3`: `Error\s.+` -/
def r3 : Regex := .seq (lit "Error".toList) (.seq space (plus dot))

/-- The ANSI stripping step of `extractError`: `rColors.ReplaceAllString(output, "")`, on
the code points of valid UTF-8 text (`stripAnsiBytes` is the same step on raw bytes). -/
def stripAnsi (output : Str) : Str := ReplaceAllEmpty ansiColorsRegex output.length output

/-- The function `extractError`. -/
def extractError (output : Str) : Str :=
  let output := stripAnsi output
  match FindStringSubmatch r1 2 output with
  | some r1Matches => r1Matches.getD 1 []
  | none =>
    match FindStringSubmatch r2 2 output with
    | some r2Matches => r2Matches.getD 2 []
    | none => FindString r3 output

/-! ## The validator -/

/-- Go `strings.Contains`. -/
def Contains : Str → Str → Bool
  | [], substr => substr.isEmpty
  | x :: t, substr => substr.isPrefixOf (x :: t) || Contains t substr

/-- The constant `errDescription`. -/
def errDescription : Str :=
  "Validation of the supplied configuration failed with the following reason: ".toList

/-- A directory entry as seen by `listPlugins`: `f.Name()` and `f.IsDir()`. -/
structure FileInfo where
  Name : Str
  IsDir : Bool

/-- The receiver type `configValidator`. -/
structure configValidator where
  FluentBitPath : Str
  PluginDirectory : Str

/-- The standard-library operations the validator calls.  A Go `error` is represented by its
message; `none` is `nil`. -/
structure Env where
  /-- `ioutil.ReadDir` -/
  ReadDir : Str → Except Str (List FileInfo)
  /-- `filepath.Join` of a directory and a file name -/
  Join : Str → Str → Str
  /-- `exec.CommandContext(ctx, name, args...).CombinedOutput()` -/
  CombinedOutput : Str → List Str → Str × Option Str

/-- The constructor `NewConfigValidator`. -/
def NewConfigValidator (fluentBitPath pluginDirectory : Str) : configValidator :=
  { FluentBitPath := fluentBitPath, PluginDirectory := pluginDirectory }

/-- The method `RunCmd`: the combined output and the error of the command. -/
def RunCmd (env : Env) (name : Str) (args : List Str) : Str × Option Str :=
  env.CombinedOutput name args

/-- The function `listPlugins`. -/
def listPlugins (env : Env) (pluginPath : Str) : Except Str (List Str) :=
  match env.ReadDir pluginPath with
  | .error err => .error err
  | .ok files =>
    .ok (files.foldl
      (fun plugins f => if f.IsDir then plugins else plugins ++ [env.Join pluginPath f.Name]) [])

/-- The argument list built by `Validate` before the command is run. -/
def fluentBitArgs (configFilePath : Str) (plugins : List Str) : List Str :=
  plugins.foldl (fun args plugin => args ++ ["-e".toList, plugin])
    ["--dry-run".toList, "--quiet".toList, "--config".toList, configFilePath]

/-- The method `Validate`.  The first component is the returned error (`none` is `nil`), the
second the commands that were executed, each with its argument list. -/
def Validate (env : Env) (v : configValidator) (configFilePath : Str) :
    Option Str × List (Str × List Str) :=
  match listPlugins env v.PluginDirectory with
  | .error err => (some err, [])
  | .ok plugins =>
    let args := fluentBitArgs configFilePath plugins
    match RunCmd env v.FluentBitPath args with
    | (out, some err) =>
      if Contains out "Error".toList then
        (some (errDescription ++ extractError out), [(v.FluentBitPath, args)])
      else
        (some ("Error while validating Fluent Bit config: ".toList ++ err),
          [(v.FluentBitPath, args)])
    | (_, none) => (none, [(v.FluentBitPath, args)])

/-! ## Declarative reading of the expressions -/

/-- `Parses r m c c1`: the expression `r` matches exactly the text `m`, extending the captures
`c` to `c1`. -/
inductive Parses : Regex → Str → Caps → Caps → Prop where
  | chr (x : Char) (c : Caps) : Parses (.chr x) [x] c c
  | cls (neg : Bool) (rs : List (Char × Char)) (x : Char) (c : Caps) :
      inCls neg rs x = true → Parses (.cls neg rs) [x] c c
  | eps (c : Caps) : Parses .eps [] c c
  | seq {a b : Regex} {m1 m2 : Str} {c c1 c2 : Caps} :
      Parses a m1 c c1 → Parses b m2 c1 c2 → Parses (.seq a b) (m1 ++ m2) c c2
  | altL {a : Regex} (b : Regex) {m : Str} {c c1 : Caps} :
      Parses a m c c1 → Parses (.alt a b) m c c1
  | altR (a : Regex) {b : Regex} {m : Str} {c c1 : Caps} :
      Parses b m c c1 → Parses (.alt a b) m c c1
  | starNil (a : Regex) (c : Caps) : Parses (.star a) [] c c
  | starCons {a : Regex} {m1 m2 : Str} {c c1 c2 : Caps} :
      Parses a m1 c c1 → Parses (.star a) m2 c1 c2 → Parses (.star a) (m1 ++ m2) c c2
  | grp (i : Nat) {a : Regex} {m : Str} {c c1 : Caps} :
      Parses a m c c1 → Parses (.grp i a) m c ((i, m) :: c1)

/-- The text `m` matches the expression `re`. -/
def Matches (re : Regex) (m : Str) : Prop := ∃ c, Parses re m [] c

/-- The characters that introduce an escape sequence: U+001B and U+009B. -/
def isEscape (x : Char) : Bool := x == '\x1b' || x == '\u009b'

/-- Every escape character of the text starts a match of `ansiColorsRegex`. -/
def everyEscapeStarts : Str → Bool
  | [] => true
  | x :: t =>
    (if isEscape x then (matchAt ansiColorsRegex (x :: t)).isSome else true) && everyEscapeStarts t

/-! ## Pattern C in the words of the specification -/

/-- A whitespace character: tab, newline, form feed, carriage return or space. -/
def isWhitespace (x : Char) : Bool :=
  x == '\t' || x == '\n' || x == '\x0c' || x == '\r' || x == ' '

/-- The text up to the end of the line. -/
def lineRest (s : Str) : Str := s.takeWhile (fun x => x != '\n')

/-- An occurrence at the very start of the text: `Error`, one whitespace character and at
least one more character before the line ends; the value is the text from that `Error`
through the end of the line. -/
def errorLineAt (s : Str) : Option Str :=
  if "Error".toList.isPrefixOf s then
    match s.drop 5 with
    | w :: y :: rest =>
      if isWhitespace w && y != '\n' then some ("Error".toList ++ w :: y :: lineRest rest)
      else none
    | _ => none
  else none

/-- Pattern C as the specification words it: the first occurrence of `Error` followed by one
whitespace character and at least one more character before the line ends, taken through the
end of that line; empty when there is no such occurrence. -/
def patternC : Str → Str
  | [] => []
  | x :: t =>
    match errorLineAt (x :: t) with
    | some r => r
    | none => patternC t

/-! ## The stripping step on raw bytes

A Go string is a byte sequence that need not be valid UTF-8.  The `regexp` package steps
through it rune by rune with `utf8.DecodeRuneInString`; a byte that starts no valid encoding
is read as `utf8.RuneError` of width 1, and `ReplaceAllString` copies the unmatched bytes
unchanged. -/

/-- Go `string` as raw bytes. -/
abbrev Bytes := List Nat

/-- The constant `utf8.RuneError`, U+FFFD. -/
def RuneError : Char := Char.ofNat 0xFFFD

/-- Go `utf8.DecodeRuneInString`: the first rune of the bytes and its width in bytes. -/
def DecodeRune : Bytes → Char × Nat
  | [] => (RuneError, 0)
  | s0 :: rest =>
    if s0 < 0x80 then (Char.ofNat s0, 1)
    else if s0 < 0xC2 then (RuneError, 1)
    else if s0 ≤ 0xDF then
      match rest with
      | s1 :: _ =>
        if 0x80 ≤ s1 ∧ s1 ≤ 0xBF then (Char.ofNat (s0 % 32 * 64 + s1 % 64), 2)
        else (RuneError, 1)
      | [] => (RuneError, 1)
    else if s0 ≤ 0xEF then
      match rest with
      | s1 :: s2 :: _ =>
        if (if s0 = 0xE0 then 0xA0 else 0x80) ≤ s1 ∧ s1 ≤ (if s0 = 0xED then 0x9F else 0xBF) then
          if 0x80 ≤ s2 ∧ s2 ≤ 0xBF then
            (Char.ofNat (s0 % 16 * 4096 + s1 % 64 * 64 + s2 % 64), 3)
          else (RuneError, 1)
        else (RuneError, 1)
      | _ => (RuneError, 1)
    else if s0 ≤ 0xF4 then
      match rest with
      | s1 :: s2 :: s3 :: _ =>
        if (if s0 = 0xF0 then 0x90 else 0x80) ≤ s1 ∧ s1 ≤ (if s0 = 0xF4 then 0x8F else 0xBF) then
          if 0x80 ≤ s2 ∧ s2 ≤ 0xBF then
            if 0x80 ≤ s3 ∧ s3 ≤ 0xBF then
              (Char.ofNat (s0 % 8 * 262144 + s1 % 64 * 4096 + s2 % 64 * 64 + s3 % 64), 4)
            else (RuneError, 1)
          else (RuneError, 1)
        else (RuneError, 1)
      | _ => (RuneError, 1)
    else (RuneError, 1)

/-- The runes of a byte string, each with the bytes it was read from; `skip` counts the
bytes that still belong to the rune read last. -/
def decodeFrom : Nat → Bytes → List (Char × Bytes)
  | _, [] => []
  | skip + 1, _ :: t => decodeFrom skip t
  | 0, b :: t =>
    ((DecodeRune (b :: t)).1, (b :: t).take (DecodeRune (b :: t)).2) ::
      decodeFrom ((DecodeRune (b :: t)).2 - 1) t

/-- The runes of a byte string, each with its bytes. -/
def decodeAll (b : Bytes) : List (Char × Bytes) := decodeFrom 0 b

/-- The runes the `regexp` package sees in a byte string. -/
def runes (b : Bytes) : Str := (decodeAll b).map (fun t => t.1)

/-- Go `utf8.EncodeRune` (equally, the bytes of a code point inside a Go string). -/
def EncodeRune (c : Char) : Bytes :=
  if c.toNat < 0x80 then [c.toNat]
  else if c.toNat < 0x800 then [0xC0 + c.toNat / 64, 0x80 + c.toNat % 64]
  else if c.toNat < 0x10000 then
    [0xE0 + c.toNat / 4096, 0x80 + c.toNat / 64 % 64, 0x80 + c.toNat % 64]
  else
    [0xF0 + c.toNat / 262144, 0x80 + c.toNat / 4096 % 64, 0x80 + c.toNat / 64 % 64,
      0x80 + c.toNat % 64]

/-- The bytes of a valid UTF-8 string, from its code points. -/
def utf8Encode (s : Str) : Bytes := (s.map EncodeRune).flatten

/-- `ReplaceAllString` with an empty replacement on decoded runes: the search runs on the
runes, the runes of each leftmost match are dropped, the others are kept with their bytes. -/
def ReplaceAllEmptyRunes (re : Regex) : Nat → List (Char × Bytes) → List (Char × Bytes)
  | 0, ts => ts
  | n + 1, ts =>
    match find re (ts.map (fun t => t.1)) with
    | none => ts
    | some m =>
      ts.take m.before.length ++
        ReplaceAllEmptyRunes re n (ts.drop (m.before.length + m.text.length))

/-- The ANSI stripping step of `extractError` on the raw bytes of the output. -/
def stripAnsiBytes (output : Bytes) : Bytes :=
  ((ReplaceAllEmptyRunes ansiColorsRegex (decodeAll output).length (decodeAll output)).map
    (fun t => t.2)).flatten

/-! ## Concrete inputs -/

/-- A directory with the files `a.so` and `b.so` and the subdirectory `sub`, a command that
succeeds, and path joining with a separator. -/
def scenario6Env : Env where
  ReadDir := fun _ => .ok [⟨"a.so".toList, false⟩, ⟨"b.so".toList, false⟩, ⟨"sub".toList, true⟩]
  Join := fun d n => d ++ "/".toList ++ n
  CombinedOutput := fun _ _ => ([], none)

/-- An empty plugin directory and a command that fails with the output of Scenario 5. -/
def scenario5Env : Env where
  ReadDir := fun _ => .ok []
  Join := fun d n => d ++ "/".toList ++ n
  CombinedOutput := fun _ _ => ("panic: unexpected signal".toList, some "exit status 2".toList)

/-- The input of Scenario 3 as plain text. -/
def scenario3Plain : Str :=
  "[2024] [Error] File x.conf\n[2024] [Error] Error in line 4: bad key Error: Configuration file contains errors. Aborting".toList

/-- The input of Scenario 3 with a newline instead of the space before the final `Error:`. -/
def scenario3Newline : Str :=
  "[2024] [Error] File x.conf\n[2024] [Error] Error in line 4: bad key\nError: Configuration file contains errors. Aborting".toList

/-- The input of Scenario 3 with the color codes ESC[1m, ESC[91m and ESC[0m around its
bracket tokens. -/
def scenario3Colored : Str :=
  "\x1b[1m[\x1b[0m2024\x1b[1m]\x1b[0m [\x1b[1m\x1b[91mError\x1b[0m] File x.conf\n\x1b[1m[\x1b[0m2024\x1b[1m]\x1b[0m [\x1b[1m\x1b[91mError\x1b[0m] Error in line 4: bad key Error: Configuration file contains errors. Aborting".toList

/-! ## Characters and classes -/

theorem toNat_eq_iff (x a : Char) : x.toNat = a.toNat ↔ x = a := by
  constructor
  · intro h
    apply Char.ext
    apply UInt32.ext
    exact h
  · intro h; rw [h]

theorem inRanges_nil (x : Char) : inRanges [] x = false := rfl

theorem inRanges_cons (p : Char × Char) (rs : List (Char × Char)) (x : Char) :
    inRanges (p :: rs) x =
      ((decide (p.1.toNat ≤ x.toNat) && decide (x.toNat ≤ p.2.toNat)) || inRanges rs x) := by
  simp [inRanges]

theorem inCls_dot (x : Char) : inCls true [('\n', '\n')] x = true ↔ x ≠ '\n' := by
  have h := toNat_eq_iff x '\n'
  simp only [inCls, inRanges_cons, inRanges_nil, if_true, Bool.or_false]
  rw [ne_eq, ← h]
  simp only [Bool.not_eq_true', Bool.and_eq_false_iff, decide_eq_false_iff_not]
  omega

section
variable {R : Type}

theorem matchK_chr_nil (x : Char) (c : Caps) (k : Str → Caps → Option R) :
    matchK (.chr x) [] c k = none := rfl

theorem matchK_chr_cons (x y : Char) (t : Str) (c : Caps) (k : Str → Caps → Option R) :
    matchK (.chr x) (y :: t) c k = if y = x then k t c else none := rfl

theorem matchK_cls_nil (neg : Bool) (rs : List (Char × Char)) (c : Caps)
    (k : Str → Caps → Option R) : matchK (.cls neg rs) [] c k = none := rfl

theorem matchK_cls_cons (neg : Bool) (rs : List (Char × Char)) (y : Char) (t : Str) (c : Caps)
    (k : Str → Caps → Option R) :
    matchK (.cls neg rs) (y :: t) c k = if inCls neg rs y then k t c else none := rfl

theorem matchK_eps (s : Str) (c : Caps) (k : Str → Caps → Option R) :
    matchK .eps s c k = k s c := rfl

theorem matchK_seq (a b : Regex) (s : Str) (c : Caps) (k : Str → Caps → Option R) :
    matchK (.seq a b) s c k = matchK a s c (fun s1 c1 => matchK b s1 c1 k) := rfl

theorem matchK_alt (a b : Regex) (s : Str) (c : Caps) (k : Str → Caps → Option R) :
    matchK (.alt a b) s c k =
      (match matchK a s c k with
       | some v => some v
       | none => matchK b s c k) := rfl

theorem matchK_star (a : Regex) (s : Str) (c : Caps) (k : Str → Caps → Option R) :
    matchK (.star a) s c k = starLoop (matchK a) s.length s c k := rfl

theorem matchK_grp (i : Nat) (a : Regex) (s : Str) (c : Caps) (k : Str → Caps → Option R) :
    matchK (.grp i a) s c k =
      matchK a s c (fun s1 c1 => k s1 ((i, s.take (s.length - s1.length)) :: c1)) := rfl
end

theorem isEscape_iff (x : Char) :
    inCls false [('\x1b', '\x1b'), ('\u009b', '\u009b')] x = isEscape x := by
  have h1 := toNat_eq_iff x '\x1b'
  have h2 := toNat_eq_iff x '\u009b'
  simp only [inCls, inRanges_cons, inRanges_nil, Bool.or_false, isEscape]
  rw [Bool.eq_iff_iff]
  simp only [Bool.false_eq_true, if_false, Bool.or_eq_true, Bool.and_eq_true, decide_eq_true_eq, beq_iff_eq]
  rw [← h1, ← h2]
  omega

theorem matchAt_ansi_nil : matchAt ansiColorsRegex [] = none := rfl

theorem matchAt_ansi_cons (x : Char) (t : Str) (h : isEscape x = false) :
    matchAt ansiColorsRegex (x :: t) = none := by
  unfold matchAt ansiColorsRegex
  rw [matchK_seq, matchK_cls_cons, isEscape_iff, h]
  rfl

/-! ## Soundness of the matcher with respect to the declarative reading -/

theorem starLoop_sound {R : Type} (a : Regex)
    (step : Str → Caps → (Str → Caps → Option R) → Option R)
    (hstep : ∀ s c (k : Str → Caps → Option R) v, step s c k = some v →
      ∃ m s1 c1, s = m ++ s1 ∧ Parses a m c c1 ∧ k s1 c1 = some v) :
    ∀ n s c (k : Str → Caps → Option R) v, starLoop step n s c k = some v →
      ∃ m s1 c1, s = m ++ s1 ∧ Parses (.star a) m c c1 ∧ k s1 c1 = some v := by
  intro n
  induction n with
  | zero =>
    intro s c k v h
    exact ⟨[], s, c, rfl, Parses.starNil a c, h⟩
  | succ n ih =>
    intro s c k v h
    unfold starLoop at h
    split at h
    · rename_i w hw
      obtain ⟨m, s1, c1, hs, hp, hk⟩ := hstep _ _ _ _ hw
      split at hk
      · obtain ⟨m2, s2, c2, hs2, hp2, hk2⟩ := ih _ _ _ _ hk
        refine ⟨m ++ m2, s2, c2, ?_, Parses.starCons hp hp2, ?_⟩
        · rw [hs, hs2, List.append_assoc]
        · rw [← h]; exact hk2
      · exact absurd hk (by simp)
    · exact ⟨[], s, c, rfl, Parses.starNil a c, h⟩

theorem take_length_sub (m s1 : Str) : (m ++ s1).take ((m ++ s1).length - s1.length) = m := by
  simp

theorem matchK_sound {R : Type} (r : Regex) :
    ∀ s c (k : Str → Caps → Option R) v, matchK r s c k = some v →
      ∃ m s1 c1, s = m ++ s1 ∧ Parses r m c c1 ∧ k s1 c1 = some v := by
  induction r with
  | chr x =>
    intro s c k v h
    cases s with
    | nil => exact absurd h (by simp [matchK_chr_nil])
    | cons y t =>
      rw [matchK_chr_cons] at h
      split at h
      · rename_i hy
        subst hy
        exact ⟨[y], t, c, rfl, Parses.chr y c, h⟩
      · exact absurd h (by simp)
  | cls neg rs =>
    intro s c k v h
    cases s with
    | nil => exact absurd h (by simp [matchK_cls_nil])
    | cons y t =>
      rw [matchK_cls_cons] at h
      split at h
      · rename_i hy
        exact ⟨[y], t, c, rfl, Parses.cls neg rs y c hy, h⟩
      · exact absurd h (by simp)
  | eps =>
    intro s c k v h
    exact ⟨[], s, c, rfl, Parses.eps c, h⟩
  | seq a b iha ihb =>
    intro s c k v h
    rw [matchK_seq] at h
    obtain ⟨m1, s1, c1, hs1, hp1, hk1⟩ := iha _ _ _ _ h
    obtain ⟨m2, s2, c2, hs2, hp2, hk2⟩ := ihb _ _ _ _ hk1
    exact ⟨m1 ++ m2, s2, c2, by rw [hs1, hs2, List.append_assoc], Parses.seq hp1 hp2, hk2⟩
  | alt a b iha ihb =>
    intro s c k v h
    rw [matchK_alt] at h
    split at h
    · rename_i w hw
      obtain ⟨m, s1, c1, hs, hp, hk⟩ := iha _ _ _ _ hw
      exact ⟨m, s1, c1, hs, Parses.altL b hp, by rw [← h]; exact hk⟩
    · obtain ⟨m, s1, c1, hs, hp, hk⟩ := ihb _ _ _ _ h
      exact ⟨m, s1, c1, hs, Parses.altR a hp, hk⟩
  | star a iha =>
    intro s c k v h
    rw [matchK_star] at h
    exact starLoop_sound a (matchK a) iha _ _ _ _ _ h
  | grp i a iha =>
    intro s c k v h
    rw [matchK_grp] at h
    obtain ⟨m, s1, c1, hs, hp, hk⟩ := iha _ _ _ _ h
    refine ⟨m, s1, (i, m) :: c1, hs, Parses.grp i hp, ?_⟩
    rw [hs, take_length_sub] at hk
    exact hk

theorem matchAt_sound (re : Regex) (s rest : Str) (c : Caps)
    (h : matchAt re s = some (rest, c)) :
    ∃ m, s = m ++ rest ∧ Parses re m [] c := by
  obtain ⟨m, s1, c1, hs, hp, hk⟩ := matchK_sound re _ _ _ _ h
  simp only [Option.some.injEq, Prod.mk.injEq] at hk
  obtain ⟨h1, h2⟩ := hk
  subst h1; subst h2
  exact ⟨m, hs, hp⟩

/-- A successful search splits the text around a match that starts at the first position at
which the expression matches. -/
theorem find_some (re : Regex) : ∀ (s : Str) (m : Match), find re s = some m →
    s = m.before ++ m.text ++ m.after ∧ Parses re m.text [] m.caps ∧
    matchAt re (m.text ++ m.after) = some (m.after, m.caps) ∧
    ∀ p q, m.before = p ++ q → q ≠ [] → matchAt re (q ++ m.text ++ m.after) = none := by
  intro s
  induction s with
  | nil =>
    intro m h
    unfold find at h
    split at h
    · rename_i rest c hm
      obtain ⟨t, ht, hp⟩ := matchAt_sound _ _ _ _ hm
      simp only [Option.some.injEq] at h
      subst h
      have ht2 : t = [] ∧ rest = [] := by simpa using ht.symm
      obtain ⟨e1, e2⟩ := ht2
      subst e1; subst e2
      refine ⟨rfl, hp, hm, ?_⟩
      intro p q hpq hq
      simp at hpq
      exact absurd hpq.2 hq
    · exact absurd h (by simp)
  | cons x t ih =>
    intro m h
    unfold find at h
    split at h
    · rename_i rest c hm
      obtain ⟨u, hu, hp⟩ := matchAt_sound _ _ _ _ hm
      simp only [Option.some.injEq] at h
      subst h
      rw [hu, take_length_sub]
      refine ⟨by simp, hp, by rw [← hu]; exact hm, ?_⟩
      intro p q hpq hq
      simp at hpq
      exact absurd hpq.2 hq
    · rename_i hm
      split at h
      · rename_i m2 hm2
        simp only [Option.some.injEq] at h
        subst h
        obtain ⟨hs, hp, hat, hleft⟩ := ih m2 hm2
        refine ⟨by simp [hs], hp, hat, ?_⟩
        intro p q hpq hq
        cases p with
        | nil =>
          simp only [List.nil_append] at hpq
          rw [← hpq]
          simp only [List.cons_append]
          rw [← hs]
          exact hm
        | cons y p2 =>
          simp only [List.cons_append, List.cons.injEq] at hpq
          exact hleft p2 q hpq.2 hq
      · exact absurd h (by simp)

/-- A failed search means the expression matches at no position. -/
theorem find_none (re : Regex) : ∀ (s : Str), find re s = none →
    ∀ p q, s = p ++ q → matchAt re q = none := by
  intro s
  induction s with
  | nil =>
    intro h p q hpq
    have : p = [] ∧ q = [] := by simpa using hpq.symm
    rw [this.2]
    unfold find at h
    split at h
    · exact absurd h (by simp)
    · assumption
  | cons x t ih =>
    intro h p q hpq
    unfold find at h
    split at h
    · exact absurd h (by simp)
    · rename_i hm
      split at h
      · exact absurd h (by simp)
      · rename_i hf
        cases p with
        | nil => simp only [List.nil_append] at hpq; rw [← hpq]; exact hm
        | cons y p2 =>
          simp only [List.cons_append, List.cons.injEq] at hpq
          exact ih hf p2 q hpq.2

/-- When the expression matches at no position, the search fails. -/
theorem find_eq_none (re : Regex) : ∀ (s : Str),
    (∀ p q, s = p ++ q → matchAt re q = none) → find re s = none := by
  intro s
  induction s with
  | nil =>
    intro h
    unfold find
    rw [h [] [] rfl]
  | cons x t ih =>
    intro h
    unfold find
    rw [h [] (x :: t) rfl]
    simp only
    rw [ih (fun p q hpq => h (x :: p) q (by simp [hpq]))]

/-- A match at the very start of the text is the result of the search. -/
theorem find_of_matchAt (re : Regex) (m rest : Str) (c : Caps)
    (h : matchAt re (m ++ rest) = some (rest, c)) :
    find re (m ++ rest) = some ⟨[], m, rest, c⟩ := by
  cases hs : m ++ rest with
  | nil =>
    have : m = [] ∧ rest = [] := by simpa using hs
    rw [hs] at h
    unfold find
    rw [h, this.1, this.2]
  | cons x t =>
    rw [hs] at h
    unfold find
    rw [h]
    simp only
    rw [← hs, take_length_sub]

/-! ## Greedy repetition of a character class -/

section
variable {R : Type}

/-- Repetition of a class fails when the continuation fails after every possible number of
iterations. -/
theorem starLoop_cls_none (neg : Bool) (rs : List (Char × Char)) (rest : Str) (c : Caps)
    (k : Str → Caps → Option R)
    (hrest : ∀ y t, rest = y :: t → inCls neg rs y = false) :
    ∀ (ys : Str) (n : Nat), (∀ p q, ys = p ++ q → k (q ++ rest) c = none) →
      starLoop (matchK (.cls neg rs)) n (ys ++ rest) c k = none := by
  intro ys
  induction ys with
  | nil =>
    intro n hfail
    have h0 : k rest c = none := hfail [] [] rfl
    cases n with
    | zero => exact h0
    | succ n =>
      unfold starLoop
      cases rest with
      | nil => simp only [List.nil_append, matchK_cls_nil]; exact h0
      | cons y t =>
        simp only [List.nil_append, matchK_cls_cons, hrest y t rfl]
        exact h0
  | cons y ys ih =>
    intro n hfail
    have h0 : k (y :: ys ++ rest) c = none := hfail [] (y :: ys) rfl
    cases n with
    | zero => exact h0
    | succ n =>
      unfold starLoop
      simp only [List.cons_append, matchK_cls_cons]
      have ih2 := ih n (fun p q hpq => hfail (y :: p) q (by simp [hpq]))
      split
      · rename_i v hv
        split at hv
        · simp [ih2] at hv
        · exact absurd hv (by simp)
      · exact h0

/-- Greedy repetition of a class over a run of class characters: the continuation is tried
after the longest run first and then after shorter ones; the first success is the result. -/
theorem starLoop_cls_backtrack (neg : Bool) (rs : List (Char × Char)) (ys rest : Str)
    (c : Caps) (k : Str → Caps → Option R) (v : R)
    (hrest : ∀ y t, rest = y :: t → inCls neg rs y = false)
    (hfail : ∀ p q, ys = p ++ q → p ≠ [] → k (q ++ rest) c = none)
    (hk : k (ys ++ rest) c = some v) :
    ∀ (xs : Str) (n : Nat), (∀ x ∈ xs ++ ys, inCls neg rs x = true) →
      (xs ++ ys).length ≤ n →
      starLoop (matchK (.cls neg rs)) n (xs ++ ys ++ rest) c k = some v := by
  intro xs
  induction xs with
  | nil =>
    intro n hall hn
    simp only [List.nil_append] at hall hn ⊢
    cases ys with
    | nil =>
      cases n with
      | zero => exact hk
      | succ n =>
        unfold starLoop
        cases rest with
        | nil => simp only [List.nil_append, matchK_cls_nil]; exact hk
        | cons y t =>
          simp only [List.nil_append, matchK_cls_cons, hrest y t rfl]
          exact hk
    | cons y ys =>
      cases n with
      | zero => simp at hn
      | succ n =>
        unfold starLoop
        simp only [List.cons_append, matchK_cls_cons, hall y (by simp), if_true]
        have hnone := starLoop_cls_none neg rs rest c k hrest ys n
          (fun p q hpq => hfail (y :: p) q (by simp [hpq]) (by simp))
        simp only [List.length_cons, Nat.lt_succ_self, if_true, hnone]
        exact hk
  | cons x xs ih =>
    intro n hall hn
    cases n with
    | zero => simp at hn
    | succ n =>
      unfold starLoop
      simp only [List.cons_append, matchK_cls_cons, hall x (by simp), if_true]
      have ih2 := ih n (fun z hz => hall z (by simp at hz ⊢; tauto))
        (by simp at hn ⊢; omega)
      simp only [List.length_cons, Nat.lt_succ_self, if_true]
      rw [ih2]

/-- Special case: the continuation succeeds right after the longest run. -/
theorem star_cls_longest (neg : Bool) (rs : List (Char × Char)) (xs rest : Str)
    (c : Caps) (k : Str → Caps → Option R) (v : R)
    (hall : ∀ x ∈ xs, inCls neg rs x = true)
    (hrest : ∀ y t, rest = y :: t → inCls neg rs y = false)
    (hk : k rest c = some v) :
    matchK (.star (.cls neg rs)) (xs ++ rest) c k = some v := by
  rw [matchK_star]
  have h := starLoop_cls_backtrack neg rs [] rest c k v hrest
    (fun p q hpq hp => by simp at hpq; exact absurd hpq.1 hp) hk xs (xs ++ rest).length
    (by simpa using hall) (by simp)
  simpa using h

/-- Literal text matches itself. -/
theorem matchK_lit (w s : Str) (c : Caps) (k : Str → Caps → Option R) :
    matchK (lit w) (w ++ s) c k = k s c := by
  induction w using lit.induct with
  | case1 => rfl
  | case2 x => simp [lit, matchK_chr_cons]
  | case3 x y t ih =>
    rw [lit, matchK_seq]
    simp only [List.cons_append, matchK_chr_cons, if_true]
    exact ih
end

/-- Literal text parses only itself and records no capture. -/
theorem parses_lit (w : Str) : ∀ (m : Str) (c c1 : Caps), Parses (lit w) m c c1 →
    m = w ∧ c1 = c := by
  induction w using lit.induct with
  | case1 => intro m c c1 h; cases h; exact ⟨rfl, rfl⟩
  | case2 x => intro m c c1 h; cases h; exact ⟨rfl, rfl⟩
  | case3 x y t ih =>
    intro m c c1 h
    rw [lit] at h
    cases h with
    | seq h1 h2 =>
      cases h1
      obtain ⟨e1, e2⟩ := ih _ _ _ h2
      subst e1; subst e2
      exact ⟨rfl, rfl⟩

/-! ## ANSI stripping of text without escape characters -/

theorem find_ansi_none (s : Str) (h : ∀ x ∈ s, isEscape x = false) :
    find ansiColorsRegex s = none := by
  apply find_eq_none
  intro p q hpq
  cases q with
  | nil => exact matchAt_ansi_nil
  | cons x t => exact matchAt_ansi_cons x t (h x (by simp [hpq]))

theorem replaceAll_of_find_none (re : Regex) (n : Nat) (s : Str) (h : find re s = none) :
    ReplaceAllEmpty re n s = s := by
  cases n with
  | zero => rfl
  | succ n => unfold ReplaceAllEmpty; rw [h]

theorem stripAnsi_of_no_escape (s : Str) (h : ∀ x ∈ s, isEscape x = false) :
    stripAnsi s = s :=
  replaceAll_of_find_none _ _ _ (find_ansi_none s h)

theorem isEscape_false_iff (x : Char) : isEscape x = false ↔ x ≠ '\x1b' ∧ x ≠ '\u009b' := by
  simp [isEscape]

theorem no_escape_of_not_mem (s : Str) (h1 : '\x1b' ∉ s) (h2 : '\u009b' ∉ s) :
    ∀ x ∈ s, isEscape x = false := by
  intro x hx
  rw [isEscape_false_iff]
  constructor
  · intro e; subst e; exact h1 hx
  · intro e; subst e; exact h2 hx

/-! ## Results of the search functions from a match at the start -/

theorem find_head (re : Regex) (s rest : Str) (c : Caps) (h : matchAt re s = some (rest, c)) :
    ∃ m, s = m ++ rest ∧ find re s = some ⟨[], m, rest, c⟩ := by
  obtain ⟨m, hs, _⟩ := matchAt_sound re s rest c h
  refine ⟨m, hs, ?_⟩
  rw [hs] at h ⊢
  exact find_of_matchAt re m rest c h

theorem findStringSubmatch_of_find (re : Regex) (s : Str) (m : Match) (h : find re s = some m) :
    FindStringSubmatch re 2 s = some [m.text, capture m.caps 1, capture m.caps 2] := by
  unfold FindStringSubmatch
  rw [h]
  rfl

theorem findStringSubmatch_none (re : Regex) (s : Str) (h : find re s = none) :
    FindStringSubmatch re 2 s = none := by
  unfold FindStringSubmatch
  rw [h]

theorem findStringSubmatch_eq_none (re : Regex) (s : Str)
    (h : FindStringSubmatch re 2 s = none) : find re s = none := by
  unfold FindStringSubmatch at h
  split at h
  · exact absurd h (by simp)
  · assumption

theorem capture_head (i : Nat) (t : Str) (c : Caps) : capture ((i, t) :: c) i = t := by
  simp [capture]

theorem capture_skip (i j : Nat) (t : Str) (c : Caps) (h : j ≠ i) :
    capture ((j, t) :: c) i = capture c i := by
  have hb : (j == i) = false := by simpa using h
  simp [capture, List.find?, hb]

/-! ## The character classes of the three search expressions -/

theorem inCls_not_bracket (x : Char) : inCls true [(']', ']')] x = true ↔ x ≠ ']' := by
  have h := toNat_eq_iff x ']'
  simp only [inCls, inRanges_cons, inRanges_nil, if_true, Bool.or_false]
  rw [ne_eq, ← h]
  simp only [Bool.not_eq_true', Bool.and_eq_false_iff, decide_eq_false_iff_not]
  omega

theorem inCls_dot_false (x : Char) : inCls true [('\n', '\n')] x = false ↔ x = '\n' := by
  rw [← Bool.not_eq_true, inCls_dot]
  simp

theorem inCls_space (x : Char) :
    inCls false [('\t', '\n'), ('\x0c', '\r'), (' ', ' ')] x = isWhitespace x := by
  have h1 := toNat_eq_iff x '\t'
  have h2 := toNat_eq_iff x '\n'
  have h3 := toNat_eq_iff x '\x0c'
  have h4 := toNat_eq_iff x '\r'
  have h5 := toNat_eq_iff x ' '
  simp only [inCls, inRanges_cons, inRanges_nil, Bool.or_false, isWhitespace]
  rw [Bool.eq_iff_iff]
  simp only [Bool.false_eq_true, if_false, Bool.or_eq_true, Bool.and_eq_true, decide_eq_true_eq,
    beq_iff_eq]
  rw [← h1, ← h2, ← h3, ← h4, ← h5]
  have e1 : ('\t' : Char).toNat = 9 := rfl
  have e2 : ('\n' : Char).toNat = 10 := rfl
  have e3 : ('\x0c' : Char).toNat = 12 := rfl
  have e4 : ('\r' : Char).toNat = 13 := rfl
  have e5 : (' ' : Char).toNat = 32 := rfl
  simp only [e1, e2, e3, e4, e5]
  omega

/-- The text up to the end of the line followed by the remainder is the whole text, and the
remainder is empty or starts with a newline. -/
theorem lineRest_split (s : Str) :
    s = lineRest s ++ s.dropWhile (fun x => x != '\n') ∧ (∀ x ∈ lineRest s, x ≠ '\n') ∧
    ∀ y t, s.dropWhile (fun x => x != '\n') = y :: t → y = '\n' := by
  refine ⟨(List.takeWhile_append_dropWhile _ s).symm, ?_, ?_⟩
  · intro x hx
    have := List.mem_takeWhile_imp hx
    simpa using this
  · intro y t h
    have := List.head_dropWhile_not (fun x => x != '\n') s
    rw [h] at this
    simpa using this

/-! ## Pattern A on the two-line form -/

/-- One or more of `.` followed by the end of the line: the whole line is consumed. -/
theorem matchK_plus_dot_line {R : Type} (y : Char) (T rest : Str) (c : Caps)
    (k : Str → Caps → Option R) (v : R) (hy : y ≠ '\n') (hT : ∀ x ∈ T, x ≠ '\n')
    (hrest : ∀ z t, rest = z :: t → z = '\n')
    (hk : k rest c = some v) :
    matchK (plus dot) (y :: T ++ rest) c k = some v := by
  unfold plus dot
  rw [matchK_seq]
  simp only [List.cons_append, matchK_cls_cons, (inCls_dot y).2 hy, if_true]
  exact star_cls_longest true _ T rest c k v (fun x hx => (inCls_dot x).2 (hT x hx))
    (fun z t hz => (inCls_dot_false z).2 (hrest z t hz)) hk

theorem r1_matchAt (x y m0 : Char) (T M1 : Str) (hx : x ≠ ']') (hy : y ≠ '\n')
    (hT : ∀ z ∈ T, z ≠ '\n') (hm0 : m0 ≠ '\n') :
    ∃ rest c, matchAt r1
        ("Error".toList ++ (x :: y :: T ++ '\n' :: ("Error:".toList ++ m0 :: M1))) = some (rest, c) ∧
      capture c 1 = "Error".toList ++ x :: y :: T := by
  obtain ⟨hsplit, hline, hdrop⟩ := lineRest_split M1
  refine ⟨M1.dropWhile (fun x => x != '\n'),
    [(2, "Error:".toList ++ m0 :: lineRest M1), (1, "Error".toList ++ x :: y :: T)], ?_, ?_⟩
  · unfold matchAt r1
    rw [matchK_seq, matchK_grp, matchK_seq, matchK_lit, matchK_seq]
    simp only [List.cons_append, matchK_cls_cons, (inCls_not_bracket x).2 hx, if_true]
    apply matchK_plus_dot_line y T _ _ _ _ hy hT
    · intro z t hz
      simp only [List.cons.injEq] at hz
      exact hz.1.symm
    · have e1 : ("Error".toList ++ x :: y :: (T ++ '\n' :: ("Error:".toList ++ m0 :: M1))) =
          ("Error".toList ++ x :: y :: T) ++ ('\n' :: ("Error:".toList ++ m0 :: M1)) := by simp
      have e2 : ("Error:".toList ++ m0 :: (lineRest M1 ++ M1.dropWhile (fun x => x != '\n'))) =
          ("Error:".toList ++ m0 :: lineRest M1) ++ M1.dropWhile (fun x => x != '\n') := by simp
      rw [e1, take_length_sub]
      rw [matchK_seq, matchK_chr_cons, if_pos rfl, matchK_grp, matchK_seq, matchK_lit]
      conv => lhs; rw [hsplit]
      apply matchK_plus_dot_line m0 (lineRest M1) _ _ _ _ hm0 hline hdrop
      rw [e2, take_length_sub]
  · rw [capture_skip _ _ _ _ (by decide), capture_head]

/-- C1. Pattern A returns the whole first line: when the line `L` starts with `Error`, the
character right after `Error` is not `]`, at least two characters follow `Error`, `L` has no
newline, `M` is non-empty and does not start with a newline, and neither text contains U+001B
or U+009B, then `extractError` of `L`, a newline, `Error:` and `M` is `L`. -/
theorem extractError_two_line (L M : Str)
    (hstart : "Error".toList <+: L) (hnext : L[5]? ≠ some ']') (hlen : 7 ≤ L.length)
    (hLnl : '\n' ∉ L) (hM : M ≠ []) (hM0 : M.head? ≠ some '\n')
    (hL1 : '\x1b' ∉ L) (hL2 : '\u009b' ∉ L) (hM1 : '\x1b' ∉ M) (hM2 : '\u009b' ∉ M) :
    extractError (L ++ "\n".toList ++ "Error:".toList ++ M) = L := by
  obtain ⟨t, ht⟩ := hstart
  subst ht
  match t, hnext, hlen, hLnl, hL1, hL2 with
  | [], _, hlen, _, _, _ => exact absurd hlen (by simp)
  | [_], _, hlen, _, _, _ => exact absurd hlen (by simp)
  | x :: y :: T, hnext, _, hLnl, hL1, hL2 =>
    match M, hM, hM0, hM1, hM2 with
    | m0 :: M1, _, hM0, hM1, hM2 =>
      have hx : x ≠ ']' := by
        intro e; subst e; exact hnext rfl
      have hy : y ≠ '\n' := by
        intro e; subst e; exact hLnl (by simp)
      have hT : ∀ z ∈ T, z ≠ '\n' := by
        intro z hz e; subst e; exact hLnl (by simp [hz])
      have hm0 : m0 ≠ '\n' := by
        intro e; subst e; exact hM0 rfl
      have hstrip : stripAnsi ("Error".toList ++ x :: y :: T ++ "\n".toList ++ "Error:".toList
          ++ m0 :: M1) = "Error".toList ++ x :: y :: T ++ "\n".toList ++ "Error:".toList
          ++ m0 :: M1 := by
        apply stripAnsi_of_no_escape
        intro z hz
        rw [List.mem_append, List.mem_append, List.mem_append] at hz
        rcases hz with ((hz | hz) | hz) | hz
        · exact no_escape_of_not_mem _ hL1 hL2 z hz
        · revert z; decide
        · revert z; decide
        · exact no_escape_of_not_mem _ hM1 hM2 z hz
      obtain ⟨rest, c, hmatch, hcap⟩ := r1_matchAt x y m0 T M1 hx hy hT hm0
      have hshape : "Error".toList ++ x :: y :: T ++ "\n".toList ++ "Error:".toList ++ m0 :: M1 =
          "Error".toList ++ (x :: y :: T ++ '\n' :: ("Error:".toList ++ m0 :: M1)) := by
        simp
      obtain ⟨m, _, hfind⟩ := find_head r1 _ rest c hmatch
      unfold extractError
      simp only [hstrip]
      rw [hshape, findStringSubmatch_of_find r1 _ _ hfind]
      exact hcap

/-- C1 at the input of Scenario 1. -/
theorem extractError_two_line_witness :
    extractError ("Error using configured plugin 'foo'".toList ++ "\n".toList ++ "Error:".toList
      ++ " Configuration file contains errors. Aborting".toList)
      = "Error using configured plugin 'foo'".toList :=
  extractError_two_line "Error using configured plugin 'foo'".toList
    " Configuration file contains errors. Aborting".toList
    (by decide) (by decide) (by decide) (by decide) (by decide) (by decide) (by decide)
    (by decide) (by decide) (by decide)

/-! ## Substring test -/

theorem contains_of_isPrefixOf (sub : Str) : ∀ (p q : Str), sub.isPrefixOf q = true →
    Contains (p ++ q) sub = true := by
  intro p
  induction p with
  | nil =>
    intro q h
    cases q with
    | nil =>
      cases sub with
      | nil => rfl
      | cons a w => simp [List.isPrefixOf] at h
    | cons x t => simp only [List.nil_append, Contains, h, Bool.true_or]
  | cons a p ih =>
    intro q h
    show Contains (a :: (p ++ q)) sub = true
    rw [Contains, ih q h, Bool.or_true]

theorem contains_iff_infix (sub : Str) : ∀ s : Str, Contains s sub = true ↔ sub <:+: s := by
  intro s
  induction s with
  | nil =>
    cases sub with
    | nil => simp [Contains]
    | cons a w => simp [Contains]
  | cons x t ih =>
    simp only [Contains, Bool.or_eq_true, ih, List.isPrefixOf_iff_prefix]
    rw [List.infix_cons_iff]

/-! ## Shape of the matches of the three search expressions -/

theorem parses_r1_shape (m : Str) (c c1 : Caps) (h : Parses r1 m c c1) :
    ∃ a b, m = a ++ '\n' :: ("Error:".toList ++ b) := by
  unfold r1 at h
  cases h with
  | seq h1 h2 =>
    cases h2 with
    | seq h3 h4 =>
      cases h3
      cases h4 with
      | grp _ h5 =>
        cases h5 with
        | seq h6 h7 =>
          obtain ⟨e, _⟩ := parses_lit _ _ _ _ h6
          subst e
          exact ⟨_, _, rfl⟩

theorem parses_r2_tail_shape (m : Str) (c c1 : Caps)
    (h : Parses (.seq (.grp 1 (.seq (lit "Error:".toList) space))
      (.grp 2 (.seq (plus dot) (.chr '.')))) m c c1) :
    ∃ b, m = "Error:".toList ++ b := by
  cases h with
  | seq h1 h2 =>
    cases h1 with
    | grp _ h3 =>
      cases h3 with
      | seq h4 h5 =>
        obtain ⟨e, _⟩ := parses_lit _ _ _ _ h4
        subst e
        exact ⟨_, List.append_assoc _ _ _⟩

theorem parses_r2_shape (m : Str) (c c1 : Caps) (h : Parses r2 m c c1) :
    ∃ a b, m = a ++ ("Error:".toList ++ b) := by
  unfold r2 at h
  cases h with
  | seq h1 h2 =>
    obtain ⟨b, hb⟩ := parses_r2_tail_shape _ _ _ h2
    exact ⟨_, b, by rw [hb]⟩

/-- Pattern A never matches in a text without a newline. -/
theorem find_r1_none_of_no_newline (s : Str) (h : '\n' ∉ s) : find r1 s = none := by
  cases hf : find r1 s with
  | none => rfl
  | some m =>
    obtain ⟨hs, hp, _, _⟩ := find_some r1 s m hf
    obtain ⟨a, b, hm⟩ := parses_r1_shape _ _ _ hp
    exact absurd (by rw [hs, hm]; simp) h

/-- Pattern A never matches in a text without the label `Error:`. -/
theorem find_r1_none_of_no_label (s : Str) (h : Contains s "Error:".toList = false) :
    find r1 s = none := by
  cases hf : find r1 s with
  | none => rfl
  | some m =>
    obtain ⟨hs, hp, _, _⟩ := find_some r1 s m hf
    obtain ⟨a, b, hm⟩ := parses_r1_shape _ _ _ hp
    have := contains_of_isPrefixOf "Error:".toList (m.before ++ a ++ ['\n'])
      ("Error:".toList ++ (b ++ m.after)) (by simp)
    rw [hs, hm] at h
    simp only [List.append_assoc, List.cons_append, List.nil_append] at this h
    rw [h] at this
    exact absurd this (by simp)

/-- Pattern B never matches in a text without the label `Error:`. -/
theorem find_r2_none_of_no_label (s : Str) (h : Contains s "Error:".toList = false) :
    find r2 s = none := by
  cases hf : find r2 s with
  | none => rfl
  | some m =>
    obtain ⟨hs, hp, _, _⟩ := find_some r2 s m hf
    obtain ⟨a, b, hm⟩ := parses_r2_shape _ _ _ hp
    have := contains_of_isPrefixOf "Error:".toList (m.before ++ a)
      ("Error:".toList ++ (b ++ m.after)) (by simp)
    rw [hs, hm] at h
    simp only [List.append_assoc, List.cons_append, List.nil_append] at this h
    rw [h] at this
    exact absurd this (by simp)

/-! ## Pattern B on the single-line form -/

/-- A proper suffix of `Error: ` followed by `D` either does not start with `E` or is a suffix
of `D`. -/
theorem label_suffix_cases (D p q : Str) (h : "Error: ".toList ++ D = p ++ q) (hp : p ≠ []) :
    (∃ z t, q = z :: t ∧ z ≠ 'E') ∨ ∃ p2, D = p2 ++ q := by
  have e : "Error: ".toList = ['E', 'r', 'r', 'o', 'r', ':', ' '] := rfl
  rw [e] at h
  rcases p with _ | ⟨a1, _ | ⟨a2, _ | ⟨a3, _ | ⟨a4, _ | ⟨a5, _ | ⟨a6, _ | ⟨a7, p2⟩⟩⟩⟩⟩⟩⟩
  · exact absurd rfl hp
  all_goals simp only [List.cons_append, List.nil_append, List.cons.injEq] at h
  · left; exact ⟨'r', _, h.2.symm, by decide⟩
  · left; exact ⟨'r', _, h.2.2.symm, by decide⟩
  · left; exact ⟨'o', _, h.2.2.2.symm, by decide⟩
  · left; exact ⟨'r', _, h.2.2.2.2.symm, by decide⟩
  · left; exact ⟨':', _, h.2.2.2.2.2.symm, by decide⟩
  · left; exact ⟨' ', _, h.2.2.2.2.2.2.symm, by decide⟩
  · right; exact ⟨p2, h.2.2.2.2.2.2.2⟩

theorem r2_tail_none (D p q : Str) (c : Caps) (k : Str → Caps → Option (Str × Caps))
    (hlab : Contains D "Error:".toList = false)
    (h : "Error: ".toList ++ D = p ++ q) (hp : p ≠ []) :
    matchK (.seq (.grp 1 (.seq (lit "Error:".toList) space))
      (.grp 2 (.seq (plus dot) (.chr '.')))) q c k = none := by
  cases hm : matchK (.seq (.grp 1 (.seq (lit "Error:".toList) space))
      (.grp 2 (.seq (plus dot) (.chr '.')))) q c k with
  | none => rfl
  | some v =>
    exfalso
    obtain ⟨m, s1, c1, hq, hpar, _⟩ := matchK_sound _ _ _ _ _ hm
    obtain ⟨b, hb⟩ := parses_r2_tail_shape _ _ _ hpar
    rcases label_suffix_cases D p q h hp with ⟨z, t, hz, hne⟩ | ⟨p2, hp2⟩
    · rw [hq, hb] at hz
      have e : "Error:".toList = ['E', 'r', 'r', 'o', 'r', ':'] := rfl
      rw [e] at hz
      simp only [List.cons_append, List.cons.injEq] at hz
      exact hne hz.1.symm
    · have := contains_of_isPrefixOf "Error:".toList p2 q (by rw [hq, hb]; simp)
      rw [← hp2, hlab] at this
      exact absurd this (by simp)

/-- The description group of Pattern B consumes a newline-free text ending in a period up
to that final period. -/
theorem r2_description (d0 : Char) (D2 : Str) (c : Caps) (hd0 : d0 ≠ '\n')
    (hD2 : ∀ z ∈ D2, z ≠ '\n') :
    matchK (.grp 2 (.seq (plus dot) (.chr '.'))) (d0 :: D2 ++ ['.']) c
      (fun s1 c1 => some (s1, c1)) = some ([], (2, d0 :: D2 ++ ['.']) :: c) := by
  rw [matchK_grp, matchK_seq]
  unfold plus dot
  rw [matchK_seq]
  simp only [List.cons_append, matchK_cls_cons, (inCls_dot d0).2 hd0, if_true]
  rw [matchK_star]
  have h := starLoop_cls_backtrack true [('\n', '\n')] ['.'] [] c
    (fun s1 c1 => matchK (.chr '.') s1 c1 (fun s1 c1 =>
      some (s1, (2, List.take ((d0 :: (D2 ++ ['.'])).length - s1.length) (d0 :: (D2 ++ ['.'])))
        :: c1)))
    ([], (2, d0 :: (D2 ++ ['.'])) :: c)
    (fun y t hy => by simp at hy)
    (fun p q hpq hp => by
      cases p with
      | nil => exact absurd rfl hp
      | cons a p2 =>
        simp only [List.cons_append, List.cons.injEq] at hpq
        have : q = [] := by
          have h2 := hpq.2
          simp only [List.nil_eq, List.append_eq_nil] at h2
          exact h2.2
        rw [this]
        rfl)
    (by simp [matchK_chr_cons])
    D2 (D2 ++ ['.']).length
    (fun z hz => by
      rw [inCls_dot]
      simp only [List.mem_append, List.mem_singleton] at hz
      rcases hz with hz | hz
      · exact hD2 z hz
      · rw [hz]; decide)
    (le_refl _)
  simpa using h

theorem r2_matchAt (P D2 : Str) (d0 : Char) (hP : ∀ z ∈ P, z ≠ '\n') (hd0 : d0 ≠ '\n')
    (hD2 : ∀ z ∈ D2, z ≠ '\n')
    (hlab : Contains (d0 :: D2 ++ ['.']) "Error:".toList = false) :
    matchAt r2 (P ++ ("Error: ".toList ++ (d0 :: D2 ++ ['.']))) =
      some ([], [(2, d0 :: D2 ++ ['.']), (1, "Error: ".toList)]) := by
  unfold matchAt r2
  rw [matchK_seq, matchK_star]
  have hk : matchK (.seq (.grp 1 (.seq (lit "Error:".toList) space))
      (.grp 2 (.seq (plus dot) (.chr '.')))) ("Error: ".toList ++ (d0 :: D2 ++ ['.']) ++ []) []
      (fun s1 c1 => some (s1, c1)) =
      some ([], [(2, d0 :: D2 ++ ['.']), (1, "Error: ".toList)]) := by
    have e : "Error: ".toList ++ (d0 :: D2 ++ ['.']) ++ [] =
        "Error:".toList ++ (' ' :: (d0 :: D2 ++ ['.'])) := by simp
    rw [matchK_seq, matchK_grp, matchK_seq, e, matchK_lit]
    unfold space
    rw [matchK_cls_cons, inCls_space, if_pos (by decide)]
    have e2 : "Error:".toList ++ (' ' :: (d0 :: D2 ++ ['.'])) =
        "Error: ".toList ++ (d0 :: D2 ++ ['.']) := by simp
    simp only [e2, take_length_sub]
    exact r2_description d0 D2 _ hd0 hD2
  have h := starLoop_cls_backtrack true [('\n', '\n')] ("Error: ".toList ++ (d0 :: D2 ++ ['.']))
    [] []
    (fun s1 c1 => matchK (.seq (.grp 1 (.seq (lit "Error:".toList) space))
      (.grp 2 (.seq (plus dot) (.chr '.')))) s1 c1 (fun s1 c1 => some (s1, c1)))
    ([], [(2, d0 :: D2 ++ ['.']), (1, "Error: ".toList)]) (fun y t hy => by simp at hy)
    (fun p q hpq hp => by
      rw [List.append_nil]
      exact r2_tail_none _ p q [] _ hlab hpq hp)
    hk P (P ++ ("Error: ".toList ++ (d0 :: D2 ++ ['.']))).length
    (fun z hz => by
      rw [inCls_dot]
      rw [List.mem_append, List.mem_append] at hz
      rcases hz with hz | hz | hz
      · exact hP z hz
      · revert z; decide
      · simp only [List.cons_append, List.mem_cons, List.mem_append, List.not_mem_nil,
          or_false] at hz
        rcases hz with hz | hz | hz
        · rw [hz]; exact hd0
        · exact hD2 z hz
        · rw [hz]; decide)
    (le_refl _)
  simp only [List.append_nil] at h
  exact h

theorem ends_with_period_shape (D : Str) (hdot : D.getLast? = some '.') (hlen : 2 ≤ D.length) :
    ∃ d0 D2, D = d0 :: D2 ++ ['.'] := by
  rcases List.eq_nil_or_concat D with h | ⟨D1, z, h⟩
  · subst h; simp at hdot
  · subst h
    simp at hdot
    subst hdot
    cases D1 with
    | nil => simp at hlen
    | cons d0 D2 => exact ⟨d0, D2, by simp⟩

/-- C2. Pattern B returns the description only: when the prefix `P`, the label `Error: ` and
the description `D` together contain no newline and no U+001B or U+009B, `D` ends with a
period, has at least two characters and contains no `Error:`, then `extractError` of the
three texts in sequence is `D`. -/
theorem extractError_single_line (P D : Str)
    (hnl : '\n' ∉ P ++ "Error: ".toList ++ D)
    (hesc1 : '\x1b' ∉ P ++ "Error: ".toList ++ D)
    (hesc2 : '\u009b' ∉ P ++ "Error: ".toList ++ D)
    (hdot : D.getLast? = some '.') (hlen : 2 ≤ D.length)
    (hlab : Contains D "Error:".toList = false) :
    extractError (P ++ "Error: ".toList ++ D) = D := by
  obtain ⟨d0, D2, hD⟩ := ends_with_period_shape D hdot hlen
  have hstrip : stripAnsi (P ++ "Error: ".toList ++ D) = P ++ "Error: ".toList ++ D :=
    stripAnsi_of_no_escape _ (no_escape_of_not_mem _ hesc1 hesc2)
  have h1 : find r1 (P ++ "Error: ".toList ++ D) = none := find_r1_none_of_no_newline _ hnl
  have hP : ∀ z ∈ P, z ≠ '\n' := by
    intro z hz e; subst e; exact hnl (by simp [hz])
  have hDnl : ∀ z ∈ D, z ≠ '\n' := by
    intro z hz e; subst e; exact hnl (by simp [hz])
  have hd0 : d0 ≠ '\n' := hDnl d0 (by rw [hD]; simp)
  have hD2 : ∀ z ∈ D2, z ≠ '\n' := fun z hz => hDnl z (by rw [hD]; simp [hz])
  have hm := r2_matchAt P D2 d0 hP hd0 hD2 (by rw [← hD]; exact hlab)
  rw [← hD, ← List.append_assoc] at hm
  obtain ⟨m, _, hfind⟩ := find_head r2 _ _ _ hm
  unfold extractError
  simp only [hstrip]
  rw [findStringSubmatch_none r1 _ h1]
  simp only
  rw [findStringSubmatch_of_find r2 _ _ hfind]
  simp only [List.getD_cons_succ, List.getD_cons_zero]
  rw [capture_head]

/-- C2 at the input of Scenario 2. -/
theorem extractError_single_line_witness :
    extractError ("some preamble ".toList ++ "Error: ".toList
      ++ "invalid port number specified.".toList) = "invalid port number specified.".toList :=
  extractError_single_line "some preamble ".toList "invalid port number specified.".toList
    (by decide) (by decide) (by decide) (by decide) (by decide) (by decide)

/-! ## The validator -/

theorem listPlugins_fold (join : Str → Str) (files : List FileInfo) : ∀ acc : List Str,
    files.foldl (fun plugins f => if f.IsDir then plugins else plugins ++ [join f.Name]) acc =
      acc ++ (files.filter (fun f => !f.IsDir)).map (fun f => join f.Name) := by
  induction files with
  | nil => intro acc; simp
  | cons f fs ih =>
    intro acc
    rw [List.foldl_cons, ih]
    cases hf : f.IsDir <;> simp [hf]

theorem listPlugins_ok (env : Env) (pluginPath : Str) (files : List FileInfo)
    (h : env.ReadDir pluginPath = .ok files) :
    listPlugins env pluginPath =
      .ok ((files.filter (fun f => !f.IsDir)).map (fun f => env.Join pluginPath f.Name)) := by
  unfold listPlugins
  rw [h]
  simp only
  rw [listPlugins_fold (env.Join pluginPath) files []]
  simp

theorem fluentBitArgs_fold (plugins : List Str) : ∀ acc : List Str,
    plugins.foldl (fun args plugin => args ++ ["-e".toList, plugin]) acc =
      acc ++ (plugins.map (fun plugin => ["-e".toList, plugin])).flatten := by
  induction plugins with
  | nil => intro acc; simp
  | cons p ps ih =>
    intro acc
    rw [List.foldl_cons, ih]
    simp

theorem fluentBitArgs_eq (configFilePath : Str) (plugins : List Str) :
    fluentBitArgs configFilePath plugins =
      ["--dry-run".toList, "--quiet".toList, "--config".toList, configFilePath] ++
        (plugins.map (fun plugin => ["-e".toList, plugin])).flatten :=
  fluentBitArgs_fold plugins _

theorem length_flatten_pairs (plugins : List Str) :
    ((plugins.map (fun plugin => ["-e".toList, plugin])).flatten).length = 2 * plugins.length := by
  induction plugins with
  | nil => rfl
  | cons p ps ih => simp only [List.map_cons, List.flatten_cons, List.length_append, ih,
      List.length_cons, List.length_nil]; omega

theorem Validate_trace (env : Env) (v : configValidator) (configFilePath : Str)
    (plugins : List Str) (h : listPlugins env v.PluginDirectory = .ok plugins) :
    (Validate env v configFilePath).2 =
      [(v.FluentBitPath, fluentBitArgs configFilePath plugins)] := by
  unfold Validate
  rw [h]
  simp only
  split
  · split <;> rfl
  · rfl

/-- C7. Argument list of the dry-run: for a readable plugin directory `Validate` runs exactly
one command, the configured binary, with the four fixed arguments followed by `-e` and the
joined path for each non-directory entry in listing order; so the list has `4 + 2N` elements
for `N` non-directory entries, and is the four fixed arguments when every entry is a
directory. -/
theorem Validate_args (env : Env) (v : configValidator) (configFilePath : Str)
    (files : List FileInfo) (h : env.ReadDir v.PluginDirectory = .ok files) :
    ∃ args, (Validate env v configFilePath).2 = [(v.FluentBitPath, args)] ∧
      args = ["--dry-run".toList, "--quiet".toList, "--config".toList, configFilePath] ++
        ((files.filter (fun f => !f.IsDir)).map
          (fun f => ["-e".toList, env.Join v.PluginDirectory f.Name])).flatten ∧
      args.length = 4 + 2 * files.countP (fun f => !f.IsDir) ∧
      ((∀ f ∈ files, f.IsDir = true) →
        args = ["--dry-run".toList, "--quiet".toList, "--config".toList, configFilePath]) := by
  have hl := listPlugins_ok env v.PluginDirectory files h
  have hargs := fluentBitArgs_eq configFilePath
    ((files.filter (fun f => !f.IsDir)).map (fun f => env.Join v.PluginDirectory f.Name))
  rw [List.map_map] at hargs
  refine ⟨_, Validate_trace env v configFilePath _ hl, hargs, ?_, ?_⟩
  · rw [fluentBitArgs_eq, List.length_append, length_flatten_pairs, List.length_map,
      List.countP_eq_length_filter]
    rfl
  · intro hall
    rw [hargs]
    have : files.filter (fun f => !f.IsDir) = [] := by
      rw [List.filter_eq_nil_iff]
      intro f hf
      simp [hall f hf]
    rw [this]
    rfl

/-- C7 at the directory of Scenario 6. -/
theorem Validate_args_witness :
    ∃ args, (Validate scenario6Env (NewConfigValidator "fluent-bit".toList "d".toList)
        "c.conf".toList).2 = [("fluent-bit".toList, args)] ∧
      args = ["--dry-run".toList, "--quiet".toList, "--config".toList, "c.conf".toList] ++
        [["-e".toList, "d/a.so".toList], ["-e".toList, "d/b.so".toList]].flatten ∧
      args.length = 4 + 2 * 2 ∧
      ((∀ f ∈ [(⟨"a.so".toList, false⟩ : FileInfo), ⟨"b.so".toList, false⟩,
          ⟨"sub".toList, true⟩], f.IsDir = true) →
        args = ["--dry-run".toList, "--quiet".toList, "--config".toList, "c.conf".toList]) :=
  Validate_args scenario6Env (NewConfigValidator "fluent-bit".toList "d".toList)
    "c.conf".toList [⟨"a.so".toList, false⟩, ⟨"b.so".toList, false⟩, ⟨"sub".toList, true⟩] rfl

/-- C5. `Validate` returns success exactly when plugin enumeration succeeded and the command
reported no error; the output text of the command plays no part. -/
theorem Validate_success_iff (env : Env) (v : configValidator) (configFilePath : Str) :
    (Validate env v configFilePath).1 = none ↔
      ∃ plugins, listPlugins env v.PluginDirectory = .ok plugins ∧
        (RunCmd env v.FluentBitPath (fluentBitArgs configFilePath plugins)).2 = none := by
  unfold Validate
  cases hl : listPlugins env v.PluginDirectory with
  | error err => simp
  | ok plugins =>
    simp only [Except.ok.injEq, exists_eq_left']
    cases hr : RunCmd env v.FluentBitPath (fluentBitArgs configFilePath plugins) with
    | mk out err =>
      cases err with
      | none => simp
      | some e =>
        simp only
        split <;> simp

/-- C6. Failure message on execution error: after a successful plugin enumeration and a
command that returned the output `out` with the error `e`, the message is the fixed
description followed by `extractError out` when `out` contains `Error`, and otherwise the
fixed wrapper followed by the text of `e`, which is the same for every other output without
`Error` and the same error. -/
theorem Validate_failure_message (env : Env) (v : configValidator) (configFilePath : Str)
    (plugins : List Str) (out e : Str)
    (hp : listPlugins env v.PluginDirectory = .ok plugins)
    (hr : RunCmd env v.FluentBitPath (fluentBitArgs configFilePath plugins) = (out, some e)) :
    (Contains out "Error".toList = true → (Validate env v configFilePath).1 =
      some ("Validation of the supplied configuration failed with the following reason: ".toList
        ++ extractError out)) ∧
    (Contains out "Error".toList = false → (Validate env v configFilePath).1 =
      some ("Error while validating Fluent Bit config: ".toList ++ e)) ∧
    (Contains out "Error".toList = false →
      ∀ (env2 : Env) (v2 : configValidator) (configFilePath2 : Str) (plugins2 : List Str)
        (out2 : Str), listPlugins env2 v2.PluginDirectory = .ok plugins2 →
        RunCmd env2 v2.FluentBitPath (fluentBitArgs configFilePath2 plugins2) = (out2, some e) →
        Contains out2 "Error".toList = false →
        (Validate env2 v2 configFilePath2).1 = (Validate env v configFilePath).1) := by
  have key : ∀ (env : Env) (v : configValidator) (configFilePath : Str) (plugins : List Str)
      (out : Str), listPlugins env v.PluginDirectory = .ok plugins →
      RunCmd env v.FluentBitPath (fluentBitArgs configFilePath plugins) = (out, some e) →
      (Validate env v configFilePath).1 =
        if Contains out "Error".toList then some (errDescription ++ extractError out)
        else some ("Error while validating Fluent Bit config: ".toList ++ e) := by
    intro env v configFilePath plugins out hp hr
    unfold Validate
    rw [hp]
    simp only
    rw [hr]
    simp only
    split <;> rfl
  refine ⟨?_, ?_, ?_⟩
  · intro hc
    rw [key env v configFilePath plugins out hp hr, if_pos hc]
    rfl
  · intro hc
    rw [key env v configFilePath plugins out hp hr, hc]
    rfl
  · intro hc env2 v2 cfg2 plugins2 out2 hp2 hr2 hc2
    rw [key env v configFilePath plugins out hp hr, key env2 v2 cfg2 plugins2 out2 hp2 hr2,
      hc, hc2]
    rfl

/-- C6 at the output of Scenario 5. -/
theorem Validate_failure_message_witness :
    (Validate scenario5Env (NewConfigValidator "fluent-bit".toList "d".toList)
      "c.conf".toList).1 =
      some ("Error while validating Fluent Bit config: ".toList ++ "exit status 2".toList) :=
  (Validate_failure_message scenario5Env (NewConfigValidator "fluent-bit".toList "d".toList)
    "c.conf".toList [] "panic: unexpected signal".toList "exit status 2".toList rfl rfl).2.1
    (by decide)

/-! ## Scenario 3 -/

set_option maxRecDepth 100000 in
/-- C3. On the input of Scenario 3, as plain text and with color codes around its bracket
tokens, the code does not return the line that starts with `Error in line 4: bad key`, which
the doc comment of `extractError` lists as the third supported form: no newline stands before
the final `Error:`, so Pattern A does not match; Pattern B then takes the last label and the
result is `Configuration file contains errors.`.  Pattern C alone finds the line, and with a
newline before the final `Error:` Pattern A returns `Error in line 4: bad key`. -/
theorem scenario3_divergence :
    stripAnsi scenario3Colored = scenario3Plain ∧
    stripAnsi scenario3Plain = scenario3Plain ∧
    FindStringSubmatch r1 2 scenario3Plain = none ∧
    (FindStringSubmatch r2 2 scenario3Plain).isSome = true ∧
    extractError scenario3Plain = "Configuration file contains errors.".toList ∧
    extractError scenario3Colored = "Configuration file contains errors.".toList ∧
    ¬ ("Error in line 4: bad key".toList <+: extractError scenario3Plain) ∧
    FindString r3 scenario3Plain =
      "Error in line 4: bad key Error: Configuration file contains errors. Aborting".toList ∧
    extractError scenario3Newline = "Error in line 4: bad key".toList := by
  decide

/-! ## Shape of parsed texts -/

theorem parses_star_cls (neg : Bool) (rs : List (Char × Char)) (m : Str) (c c1 : Caps)
    (h : Parses (.star (.cls neg rs)) m c c1) :
    (∀ z ∈ m, inCls neg rs z = true) ∧ c1 = c := by
  generalize hr : Regex.star (.cls neg rs) = r at h
  induction h with
  | chr _ _ => cases hr
  | cls _ _ _ _ _ => cases hr
  | eps _ => cases hr
  | seq _ _ _ _ => cases hr
  | altL _ _ _ => cases hr
  | altR _ _ _ => cases hr
  | starNil _ _ => exact ⟨by simp, rfl⟩
  | starCons h1 h2 _ ih2 =>
    cases hr
    cases h1 with
    | cls _ _ x _ hx =>
      obtain ⟨ha, hc⟩ := ih2 rfl
      refine ⟨?_, hc⟩
      intro z hz
      simp only [List.singleton_append, List.mem_cons] at hz
      rcases hz with hz | hz
      · rw [hz]; exact hx
      · exact ha z hz
  | grp _ _ _ => cases hr

theorem parses_plus_dot (m : Str) (c c1 : Caps) (h : Parses (plus dot) m c c1) :
    (∃ y b, m = y :: b) ∧ (∀ z ∈ m, z ≠ '\n') ∧ c1 = c := by
  unfold plus dot at h
  cases h with
  | seq h1 h2 =>
    cases h1 with
    | cls _ _ y _ hy =>
      obtain ⟨ha, hc⟩ := parses_star_cls _ _ _ _ _ h2
      refine ⟨⟨y, _, rfl⟩, ?_, hc⟩
      intro z hz
      simp only [List.singleton_append, List.mem_cons] at hz
      rcases hz with hz | hz
      · rw [hz]; exact (inCls_dot y).1 hy
      · exact (inCls_dot z).1 (ha z hz)

/-! ## Pattern C -/

theorem errorLineAt_shape (s r : Str) (h : errorLineAt s = some r) :
    ∃ w y rest, s = "Error".toList ++ w :: y :: rest ∧ isWhitespace w = true ∧ y ≠ '\n' ∧
      r = "Error".toList ++ w :: y :: lineRest rest := by
  unfold errorLineAt at h
  split at h
  · rename_i hpre
    rw [List.isPrefixOf_iff_prefix] at hpre
    obtain ⟨t, ht⟩ := hpre
    subst ht
    have hd : List.drop 5 ("Error".toList ++ t) = t := by
      have : ("Error".toList).length = 5 := rfl
      rw [← this, List.drop_left]
    rw [hd] at h
    split at h
    · rename_i w y rest
      split at h
      · rename_i hc
        simp only [Bool.and_eq_true, bne_iff_ne, ne_eq] at hc
        simp only [Option.some.injEq] at h
        exact ⟨w, y, rest, rfl, hc.1, hc.2, h.symm⟩
      · exact absurd h (by simp)
    · exact absurd h (by simp)
  · exact absurd h (by simp)

theorem errorLineAt_of_shape (w y : Char) (rest : Str) (hw : isWhitespace w = true)
    (hy : y ≠ '\n') :
    errorLineAt ("Error".toList ++ w :: y :: rest) =
      some ("Error".toList ++ w :: y :: lineRest rest) := by
  have hb : (y != '\n') = true := by simpa using hy
  have hpre : ("Error".toList).isPrefixOf ("Error".toList ++ w :: y :: rest) = true := by
    rw [List.isPrefixOf_iff_prefix]
    exact List.prefix_append _ _
  have hd : List.drop 5 ("Error".toList ++ w :: y :: rest) = w :: y :: rest := by
    have : ("Error".toList).length = 5 := rfl
    rw [← this, List.drop_left]
  unfold errorLineAt
  rw [if_pos hpre, hd]
  simp only [hw, hb, Bool.and_self, if_true]

theorem parses_r3_shape (m : Str) (c c1 : Caps) (h : Parses r3 m c c1) :
    ∃ w y b, m = "Error".toList ++ w :: y :: b ∧ isWhitespace w = true ∧ y ≠ '\n' ∧
      (∀ z ∈ b, z ≠ '\n') ∧ c1 = c := by
  unfold r3 at h
  cases h with
  | seq h1 h2 =>
    obtain ⟨e1, e2⟩ := parses_lit _ _ _ _ h1
    subst e1; subst e2
    cases h2 with
    | seq h3 h4 =>
      unfold space at h3
      cases h3 with
      | cls _ _ w _ hw =>
        rw [inCls_space] at hw
        obtain ⟨⟨y, b, hm⟩, hnl, hc⟩ := parses_plus_dot _ _ _ h4
        subst hm
        refine ⟨w, y, b, rfl, hw, hnl y (by simp), fun z hz => hnl z (by simp [hz]), hc⟩

theorem matchAt_r3_of_errorLineAt (s r : Str) (h : errorLineAt s = some r) :
    ∃ rest, s = r ++ rest ∧ matchAt r3 s = some (rest, []) := by
  obtain ⟨w, y, t, hs, hw, hy, hr⟩ := errorLineAt_shape s r h
  obtain ⟨hsplit, hline, hdrop⟩ := lineRest_split t
  refine ⟨t.dropWhile (fun x => x != '\n'), ?_, ?_⟩
  · rw [hs, hr]
    conv => lhs; rw [hsplit]
    simp
  · rw [hs]
    unfold matchAt r3
    rw [matchK_seq, matchK_lit, matchK_seq]
    unfold space
    rw [matchK_cls_cons, inCls_space, hw, if_pos rfl]
    conv => lhs; rw [hsplit]
    exact matchK_plus_dot_line y (lineRest t) _ _ _ _ hy hline hdrop rfl

theorem matchAt_r3_none (s : Str) (h : errorLineAt s = none) : matchAt r3 s = none := by
  cases hm : matchAt r3 s with
  | none => rfl
  | some v =>
    exfalso
    obtain ⟨rest, c⟩ := v
    obtain ⟨m, hs, hp⟩ := matchAt_sound r3 s rest c hm
    obtain ⟨w, y, b, hmm, hw, hy, _, _⟩ := parses_r3_shape _ _ _ hp
    have := errorLineAt_of_shape w y (b ++ rest) hw hy
    rw [hs, hmm] at h
    simp only [List.append_assoc, List.cons_append] at h
    rw [h] at this
    exact absurd this (by simp)

/-- Pattern C of the source finds what the specification describes. -/
theorem findString_r3 : ∀ s : Str, FindString r3 s = patternC s := by
  intro s
  induction s with
  | nil => rfl
  | cons x t ih =>
    unfold FindString at ih ⊢
    unfold patternC find
    cases he : errorLineAt (x :: t) with
    | some r =>
      obtain ⟨rest, hs, hm⟩ := matchAt_r3_of_errorLineAt _ _ he
      rw [hm]
      simp only
      rw [hs, take_length_sub]
    | none =>
      rw [matchAt_r3_none _ he]
      simp only
      rw [← ih]
      cases find r3 t <;> rfl

/-- The result of Pattern C is empty, or `Error`, a whitespace character and a non-empty
newline-free text. -/
theorem patternC_shape : ∀ s : Str, patternC s = [] ∨
    ∃ w y b, patternC s = "Error".toList ++ w :: y :: b ∧ isWhitespace w = true ∧ y ≠ '\n' ∧
      (∀ z ∈ b, z ≠ '\n') := by
  intro s
  induction s with
  | nil => left; rfl
  | cons x t ih =>
    unfold patternC
    cases he : errorLineAt (x :: t) with
    | some r =>
      right
      obtain ⟨w, y, rest, _, hw, hy, hr⟩ := errorLineAt_shape _ _ he
      exact ⟨w, y, lineRest rest, hr, hw, hy, (lineRest_split rest).2.1⟩
    | none => exact ih

theorem lineRest_of_no_newline (b : Str) (h : ∀ z ∈ b, z ≠ '\n') : lineRest b = b := by
  unfold lineRest
  rw [List.takeWhile_eq_self_iff]
  intro z hz
  simpa using h z hz

/-- Pattern C applied to its own result changes nothing. -/
theorem patternC_idem (s : Str) : patternC (patternC s) = patternC s := by
  rcases patternC_shape s with h | ⟨w, y, b, h, hw, hy, hb⟩
  · rw [h]; rfl
  · rw [h]
    have e : "Error".toList ++ w :: y :: b = 'E' :: ("rror".toList ++ w :: y :: b) := rfl
    have he := errorLineAt_of_shape w y b hw hy
    rw [lineRest_of_no_newline b hb] at he
    rw [e] at he ⊢
    unfold patternC
    rw [he]

/-! ## What the three patterns can return -/

theorem parses_r1_capture (m : Str) (c1 : Caps) (h : Parses r1 m [] c1) :
    ∃ x y b, capture c1 1 = "Error".toList ++ x :: y :: b ∧ ∀ z ∈ y :: b, z ≠ '\n' := by
  unfold r1 at h
  cases h with
  | seq h1 h2 =>
    cases h1 with
    | grp _ h3 =>
      cases h3 with
      | seq h4 h5 =>
        obtain ⟨e1, e2⟩ := parses_lit _ _ _ _ h4
        subst e1; subst e2
        cases h5 with
        | seq h6 h7 =>
          cases h6 with
          | cls _ _ x _ hx =>
            obtain ⟨⟨y, b, hm⟩, hnl, hc⟩ := parses_plus_dot _ _ _ h7
            subst hm; subst hc
            cases h2 with
            | seq h8 h9 =>
              cases h8
              cases h9 with
              | grp _ h10 =>
                cases h10 with
                | seq h11 h12 =>
                  obtain ⟨_, e4⟩ := parses_lit _ _ _ _ h11
                  subst e4
                  obtain ⟨_, _, hc2⟩ := parses_plus_dot _ _ _ h12
                  subst hc2
                  refine ⟨x, y, b, ?_, hnl⟩
                  rw [capture_skip _ _ _ _ (by decide), capture_head]
                  simp

theorem parses_r2_capture (m : Str) (c1 : Caps) (h : Parses r2 m [] c1) :
    ∀ z ∈ capture c1 2, z ≠ '\n' := by
  unfold r2 at h
  cases h with
  | seq h1 h2 =>
    cases h2 with
    | seq h3 h4 =>
      cases h4 with
      | grp _ h5 =>
        cases h5 with
        | seq h6 h7 =>
          obtain ⟨_, hnl, _⟩ := parses_plus_dot _ _ _ h6
          cases h7
          rw [capture_head]
          intro z hz
          simp only [List.mem_append, List.mem_singleton] at hz
          rcases hz with hz | hz
          · exact hnl z hz
          · rw [hz]; decide

/-- The result of `extractError` by cases on the pattern that produced it. -/
theorem extractError_cases (input : Str) :
    (∃ m, find r1 (stripAnsi input) = some m ∧ extractError input = capture m.caps 1) ∨
    (find r1 (stripAnsi input) = none ∧
      ∃ m, find r2 (stripAnsi input) = some m ∧ extractError input = capture m.caps 2) ∨
    (find r1 (stripAnsi input) = none ∧ find r2 (stripAnsi input) = none ∧
      extractError input = patternC (stripAnsi input)) := by
  unfold extractError
  simp only
  cases h1 : find r1 (stripAnsi input) with
  | some m =>
    left
    refine ⟨m, rfl, ?_⟩
    rw [findStringSubmatch_of_find r1 _ _ h1]
    rfl
  | none =>
    right
    rw [findStringSubmatch_none r1 _ h1]
    simp only
    cases h2 : find r2 (stripAnsi input) with
    | some m =>
      left
      refine ⟨trivial, m, rfl, ?_⟩
      rw [findStringSubmatch_of_find r2 _ _ h2]
      rfl
    | none =>
      right
      refine ⟨trivial, rfl, ?_⟩
      rw [findStringSubmatch_none r2 _ h2]
      simp only
      exact findString_r3 _

/-- C4. Pattern C fallback: when Patterns A and B both fail on the stripped text, the result
of `extractError` is the text from the first `Error` that is followed by one whitespace
character and at least one more character before the line ends, through the end of that
line, and empty when there is no such occurrence; it is empty for `Error:` and for `Error`
followed by a newline. -/
theorem extractError_fallback (input : Str)
    (hA : FindStringSubmatch r1 2 (stripAnsi input) = none)
    (hB : FindStringSubmatch r2 2 (stripAnsi input) = none) :
    extractError input = patternC (stripAnsi input) ∧
    extractError "Error:".toList = [] ∧ extractError "Error\n".toList = [] := by
  refine ⟨?_, by decide, by decide⟩
  have h1 := findStringSubmatch_eq_none r1 _ hA
  have h2 := findStringSubmatch_eq_none r2 _ hB
  rcases extractError_cases input with ⟨m, hm, _⟩ | ⟨_, m, hm, _⟩ | ⟨_, _, h⟩
  · rw [h1] at hm; exact absurd hm (by simp)
  · rw [h2] at hm; exact absurd hm (by simp)
  · exact h

/-- C4 at an input with an occurrence on its first line. -/
theorem extractError_fallback_witness :
    extractError "xx Error abc\nmore".toList = "Error abc".toList :=
  (extractError_fallback "xx Error abc\nmore".toList (by decide) (by decide)).1.trans
    (by decide)

/-- C8 as stated fails: the result for this input contains a newline. -/
theorem extractError_newline_counterexample :
    '\n' ∈ extractError "Error\nab\nError:x".toList := by
  decide

/-- C8, amended. The result of `extractError` contains no newline character, except that a
result beginning with `Error` may have a newline as the character right after that `Error`
and nowhere else. -/
theorem extractError_newline (input : Str) :
    '\n' ∉ extractError input ∨
      ∃ body, extractError input = "Error\n".toList ++ body ∧ '\n' ∉ body := by
  have key : ∀ (x y : Char) (b : Str), (∀ z ∈ y :: b, z ≠ '\n') →
      '\n' ∉ "Error".toList ++ x :: y :: b ∨
        ∃ body, "Error".toList ++ x :: y :: b = "Error\n".toList ++ body ∧ '\n' ∉ body := by
    intro x y b hnl
    by_cases hx : x = '\n'
    · right
      subst hx
      exact ⟨y :: b, rfl, fun hmem => hnl _ hmem rfl⟩
    · left
      intro hmem
      rw [List.mem_append, List.mem_cons] at hmem
      rcases hmem with hmem | hmem | hmem
      · revert hmem; decide
      · exact hx hmem.symm
      · exact hnl _ hmem rfl
  rcases extractError_cases input with ⟨m, hm, hr⟩ | ⟨_, m, hm, hr⟩ | ⟨_, _, hr⟩
  · obtain ⟨_, hp, _, _⟩ := find_some r1 _ m hm
    obtain ⟨x, y, b, hcap, hnl⟩ := parses_r1_capture _ _ hp
    rw [hr, hcap]
    exact key x y b hnl
  · obtain ⟨_, hp, _, _⟩ := find_some r2 _ m hm
    left
    rw [hr]
    exact fun hmem => parses_r2_capture _ _ hp _ hmem rfl
  · rw [hr]
    rcases patternC_shape (stripAnsi input) with h | ⟨w, y, b, h, _, hy, hb⟩
    · left; rw [h]; simp
    · rw [h]
      refine key w y b ?_
      intro z hz
      rw [List.mem_cons] at hz
      rcases hz with hz | hz
      · rw [hz]; exact hy
      · exact hb z hz

/-! ## Re-application -/

/-- On a text without escape characters and without the label `Error:` the result of
`extractError` is what Pattern C finds. -/
theorem extractError_of_no_label (r : Str) (hesc : ∀ x ∈ r, isEscape x = false)
    (hlab : Contains r "Error:".toList = false) : extractError r = patternC r := by
  have hs := stripAnsi_of_no_escape r hesc
  rcases extractError_cases r with ⟨m, hm, _⟩ | ⟨_, m, hm, _⟩ | ⟨_, _, h⟩
  · rw [hs, find_r1_none_of_no_label r hlab] at hm; exact absurd hm (by simp)
  · rw [hs, find_r2_none_of_no_label r hlab] at hm; exact absurd hm (by simp)
  · rw [h, hs]

/-- C10 as stated fails: on this input Pattern A does not match, the result is produced by
Pattern B and contains neither an escape character nor the label `Error:`, and applying
`extractError` to the result gives the empty text. -/
theorem extractError_idempotent_counterexample :
    FindStringSubmatch r1 2
      (stripAnsi "some preamble Error: invalid port number specified.".toList) = none ∧
    (FindStringSubmatch r2 2
      (stripAnsi "some preamble Error: invalid port number specified.".toList)).isSome = true ∧
    extractError "some preamble Error: invalid port number specified.".toList =
      "invalid port number specified.".toList ∧
    (∀ x ∈ "invalid port number specified.".toList, isEscape x = false) ∧
    Contains "invalid port number specified.".toList "Error:".toList = false ∧
    extractError "invalid port number specified.".toList = [] ∧
    extractError (extractError "some preamble Error: invalid port number specified.".toList) ≠
      extractError "some preamble Error: invalid port number specified.".toList := by
  decide

/-- C10, amended. When Pattern A does not match and the result `r` of `extractError` contains
no escape character and no label `Error:`, applying `extractError` to `r` gives what Pattern C
finds in `r`; this is `r` itself when `r` was produced by Pattern C. -/
theorem extractError_idempotent (input : Str)
    (hA : FindStringSubmatch r1 2 (stripAnsi input) = none)
    (hesc : ∀ x ∈ extractError input, isEscape x = false)
    (hlab : Contains (extractError input) "Error:".toList = false) :
    extractError (extractError input) = patternC (extractError input) ∧
    (FindStringSubmatch r2 2 (stripAnsi input) = none →
      extractError (extractError input) = extractError input) := by
  have h := extractError_of_no_label _ hesc hlab
  refine ⟨h, ?_⟩
  intro hB
  have h1 := findStringSubmatch_eq_none r1 _ hA
  have h2 := findStringSubmatch_eq_none r2 _ hB
  rcases extractError_cases input with ⟨m, hm, _⟩ | ⟨_, m, hm, _⟩ | ⟨_, _, hr⟩
  · rw [h1] at hm; exact absurd hm (by simp)
  · rw [h2] at hm; exact absurd hm (by simp)
  · rw [h, hr, patternC_idem]

/-- C10, amended, at an input whose result is produced by Pattern C. -/
theorem extractError_idempotent_witness :
    extractError (extractError "xx Error abc\nmore".toList) =
      extractError "xx Error abc\nmore".toList :=
  (extractError_idempotent "xx Error abc\nmore".toList (by decide) (by decide) (by decide)).2
    (by decide)

/-! ## Valid UTF-8: decoding the encoding of code points -/

theorem char_toNat_valid (c : Char) :
    c.toNat < 0xD800 ∨ (0xDFFF < c.toNat ∧ c.toNat < 0x110000) := by
  have h := c.valid
  simpa [UInt32.isValidChar, Nat.isValidChar, Char.toNat] using h

theorem ofNat_of_eq_toNat (c : Char) (n : Nat) (h : n = c.toNat) : Char.ofNat n = c := by
  rw [h]
  exact Char.ofNat_toNat c

/-- Decoding the encoding of a code point gives it back, with the width of the encoding. -/
theorem DecodeRune_EncodeRune (c : Char) (rest : Bytes) :
    DecodeRune (EncodeRune c ++ rest) = (c, (EncodeRune c).length) := by
  have hv := char_toNat_valid c
  unfold EncodeRune
  by_cases h1 : c.toNat < 0x80
  · rw [if_pos h1]
    simp only [List.singleton_append, DecodeRune, if_pos h1, List.length_singleton]
    rw [Char.ofNat_toNat]
  · rw [if_neg h1]
    by_cases h2 : c.toNat < 0x800
    · rw [if_pos h2]
      have a1 : ¬ (0xC0 + c.toNat / 64 < 0x80) := by omega
      have a2 : ¬ (0xC0 + c.toNat / 64 < 0xC2) := by omega
      have a3 : 0xC0 + c.toNat / 64 ≤ 0xDF := by omega
      have a4 : 0x80 ≤ 0x80 + c.toNat % 64 ∧ 0x80 + c.toNat % 64 ≤ 0xBF := by omega
      simp only [List.cons_append, List.nil_append, DecodeRune, if_neg a1, if_neg a2, if_pos a3,
        if_pos a4, List.length_cons, List.length_nil]
      rw [ofNat_of_eq_toNat c _ (by omega)]
    · rw [if_neg h2]
      by_cases h3 : c.toNat < 0x10000
      · rw [if_pos h3]
        have a1 : ¬ (0xE0 + c.toNat / 4096 < 0x80) := by omega
        have a2 : ¬ (0xE0 + c.toNat / 4096 < 0xC2) := by omega
        have a3 : ¬ (0xE0 + c.toNat / 4096 ≤ 0xDF) := by omega
        have a4 : 0xE0 + c.toNat / 4096 ≤ 0xEF := by omega
        have a5 : (if 0xE0 + c.toNat / 4096 = 0xE0 then 0xA0 else 0x80) ≤
            0x80 + c.toNat / 64 % 64 ∧
            0x80 + c.toNat / 64 % 64 ≤ (if 0xE0 + c.toNat / 4096 = 0xED then 0x9F else 0xBF) := by
          split_ifs <;> omega
        have a6 : 0x80 ≤ 0x80 + c.toNat % 64 ∧ 0x80 + c.toNat % 64 ≤ 0xBF := by omega
        simp only [List.cons_append, List.nil_append, DecodeRune, if_neg a1, if_neg a2,
          if_neg a3, if_pos a4, if_pos a5, if_pos a6, List.length_cons, List.length_nil]
        rw [ofNat_of_eq_toNat c _ (by omega)]
      · rw [if_neg h3]
        have a1 : ¬ (0xF0 + c.toNat / 262144 < 0x80) := by omega
        have a2 : ¬ (0xF0 + c.toNat / 262144 < 0xC2) := by omega
        have a3 : ¬ (0xF0 + c.toNat / 262144 ≤ 0xDF) := by omega
        have a4 : ¬ (0xF0 + c.toNat / 262144 ≤ 0xEF) := by omega
        have a5 : 0xF0 + c.toNat / 262144 ≤ 0xF4 := by omega
        have a6 : (if 0xF0 + c.toNat / 262144 = 0xF0 then 0x90 else 0x80) ≤
            0x80 + c.toNat / 4096 % 64 ∧
            0x80 + c.toNat / 4096 % 64 ≤
              (if 0xF0 + c.toNat / 262144 = 0xF4 then 0x8F else 0xBF) := by
          split_ifs <;> omega
        have a7 : 0x80 ≤ 0x80 + c.toNat / 64 % 64 ∧ 0x80 + c.toNat / 64 % 64 ≤ 0xBF := by omega
        have a8 : 0x80 ≤ 0x80 + c.toNat % 64 ∧ 0x80 + c.toNat % 64 ≤ 0xBF := by omega
        simp only [List.cons_append, List.nil_append, DecodeRune, if_neg a1, if_neg a2,
          if_neg a3, if_neg a4, if_pos a5, if_pos a6, if_pos a7, if_pos a8, List.length_cons,
          List.length_nil]
        rw [ofNat_of_eq_toNat c _ (by omega)]

theorem EncodeRune_ne_nil (c : Char) : ∃ b xs, EncodeRune c = b :: xs := by
  unfold EncodeRune
  split_ifs <;> exact ⟨_, _, rfl⟩

theorem decodeFrom_skip : ∀ (xs rest : Bytes),
    decodeFrom xs.length (xs ++ rest) = decodeFrom 0 rest := by
  intro xs
  induction xs with
  | nil => intro rest; rfl
  | cons x xs ih =>
    intro rest
    simp only [List.length_cons, List.cons_append, decodeFrom]
    exact ih rest

theorem decodeAll_EncodeRune (c : Char) (rest : Bytes) :
    decodeAll (EncodeRune c ++ rest) = (c, EncodeRune c) :: decodeAll rest := by
  have hd := DecodeRune_EncodeRune c rest
  obtain ⟨b, xs, hb⟩ := EncodeRune_ne_nil c
  rw [hb] at hd ⊢
  unfold decodeAll
  simp only [List.cons_append] at hd ⊢
  rw [decodeFrom, hd]
  simp only [List.length_cons, Nat.add_sub_cancel, List.take_succ_cons, List.take_left,
    decodeFrom_skip]

theorem decodeAll_utf8Encode : ∀ (s : Str),
    decodeAll (utf8Encode s) = s.map (fun c => (c, EncodeRune c)) := by
  intro s
  induction s with
  | nil => rfl
  | cons c t ih =>
    have e : utf8Encode (c :: t) = EncodeRune c ++ utf8Encode t := by
      simp only [utf8Encode, List.map_cons, List.flatten_cons]
    rw [e, decodeAll_EncodeRune, ih, List.map_cons]

/-- The runes read from valid UTF-8 are the encoded code points. -/
theorem runes_utf8Encode (s : Str) : runes (utf8Encode s) = s := by
  unfold runes
  rw [decodeAll_utf8Encode, List.map_map]
  exact List.map_id _

/-! ## The stripping step on bytes and on code points -/

theorem replaceAllRunes_runes (re : Regex) : ∀ (n : Nat) (ts : List (Char × Bytes)),
    (ReplaceAllEmptyRunes re n ts).map (fun t => t.1) =
      ReplaceAllEmpty re n (ts.map (fun t => t.1)) := by
  intro n
  induction n with
  | zero => intro ts; rfl
  | succ n ih =>
    intro ts
    rw [ReplaceAllEmptyRunes, ReplaceAllEmpty]
    cases hf : find re (ts.map (fun t => t.1)) with
    | none => rfl
    | some m =>
      simp only
      obtain ⟨hs, _, _, _⟩ := find_some re _ m hf
      rw [List.map_append, ih, List.map_take, List.map_drop, hs]
      congr 1
      · rw [List.append_assoc, List.take_left]
      · congr 1
        rw [← List.length_append, List.drop_left]

theorem replaceAllRunes_mem (re : Regex) : ∀ (n : Nat) (ts : List (Char × Bytes)),
    ∀ t ∈ ReplaceAllEmptyRunes re n ts, t ∈ ts := by
  intro n
  induction n with
  | zero => intro ts t ht; exact ht
  | succ n ih =>
    intro ts t ht
    rw [ReplaceAllEmptyRunes] at ht
    cases hf : find re (ts.map (fun t => t.1)) with
    | none => rw [hf] at ht; exact ht
    | some m =>
      rw [hf] at ht
      simp only [List.mem_append] at ht
      rcases ht with ht | ht
      · exact List.mem_of_mem_take ht
      · exact List.mem_of_mem_drop (ih _ t ht)

theorem flatten_bytes_of_encoded : ∀ (ts : List (Char × Bytes)),
    (∀ t ∈ ts, t.2 = EncodeRune t.1) →
    (ts.map (fun t => t.2)).flatten = utf8Encode (ts.map (fun t => t.1)) := by
  intro ts
  induction ts with
  | nil => intro _; rfl
  | cons t ts ih =>
    intro h
    simp only [utf8Encode, List.map_cons, List.flatten_cons] at ih ⊢
    rw [h t (by simp), ih (fun u hu => h u (by simp [hu]))]

/-- On valid UTF-8 the stripping step on bytes is the stripping step on code points. -/
theorem stripAnsiBytes_utf8Encode (s : Str) :
    stripAnsiBytes (utf8Encode s) = utf8Encode (stripAnsi s) := by
  unfold stripAnsiBytes stripAnsi
  rw [decodeAll_utf8Encode]
  have hmap : (s.map (fun c => (c, EncodeRune c))).map (fun t => t.1) = s := by
    rw [List.map_map]; exact List.map_id _
  rw [flatten_bytes_of_encoded, replaceAllRunes_runes, hmap, List.length_map]
  intro t ht
  have := replaceAllRunes_mem _ _ _ t ht
  rw [List.mem_map] at this
  obtain ⟨c, _, hc⟩ := this
  rw [← hc]

/-! ## ANSI stripping -/

theorem parses_ansi_head (m : Str) (c c1 : Caps) (h : Parses ansiColorsRegex m c c1) :
    ∃ x t, m = x :: t ∧ isEscape x = true := by
  unfold ansiColorsRegex at h
  cases h with
  | seq h1 h2 =>
    cases h1 with
    | cls _ _ x _ hx =>
      rw [isEscape_iff] at hx
      exact ⟨x, _, rfl, hx⟩

theorem not_matches_ansi_of_no_escape (s pre m post : Str)
    (h : ∀ x ∈ s, isEscape x = false) (hs : s = pre ++ m ++ post) :
    ¬ Matches ansiColorsRegex m := by
  intro ⟨c, hp⟩
  obtain ⟨x, t, hm, hx⟩ := parses_ansi_head _ _ _ hp
  have := h x (by rw [hs, hm]; simp)
  rw [hx] at this
  exact absurd this (by simp)

theorem everyEscapeStarts_suffix : ∀ (p q : Str), everyEscapeStarts (p ++ q) = true →
    everyEscapeStarts q = true := by
  intro p
  induction p with
  | nil => intro q h; exact h
  | cons a p ih =>
    intro q h
    simp only [List.cons_append, everyEscapeStarts, Bool.and_eq_true] at h
    exact ih q h.2

theorem everyEscapeStarts_at (p : Str) (x : Char) (t : Str)
    (h : everyEscapeStarts (p ++ x :: t) = true) (hx : isEscape x = true) :
    (matchAt ansiColorsRegex (x :: t)).isSome = true := by
  have h2 := everyEscapeStarts_suffix p (x :: t) h
  simp only [everyEscapeStarts, hx, if_true, Bool.and_eq_true] at h2
  exact h2.1

theorem stripAnsi_no_escape : ∀ (n : Nat) (s : Str), s.length ≤ n →
    everyEscapeStarts s = true →
    ∀ x ∈ ReplaceAllEmpty ansiColorsRegex n s, isEscape x = false := by
  intro n
  induction n with
  | zero =>
    intro s hn _ x hx
    have : s = [] := List.length_eq_zero.1 (Nat.le_zero.1 hn)
    subst this
    simp [ReplaceAllEmpty] at hx
  | succ n ih =>
    intro s hn hs x hx
    unfold ReplaceAllEmpty at hx
    cases hf : find ansiColorsRegex s with
    | none =>
      rw [hf] at hx
      simp only at hx
      cases hb : isEscape x with
      | false => rfl
      | true =>
        exfalso
        obtain ⟨p, t, hpt⟩ := List.append_of_mem hx
        have h1 := everyEscapeStarts_at p x t (by rw [← hpt]; exact hs) hb
        rw [find_none _ s hf p (x :: t) hpt] at h1
        exact absurd h1 (by simp)
    | some m =>
      rw [hf] at hx
      simp only at hx
      obtain ⟨hsplit, hp, _, hleft⟩ := find_some _ s m hf
      obtain ⟨y, u, hm, _⟩ := parses_ansi_head _ _ _ hp
      rw [List.mem_append] at hx
      rcases hx with hx | hx
      · cases hb : isEscape x with
        | false => rfl
        | true =>
          exfalso
          obtain ⟨p, t, hpt⟩ := List.append_of_mem hx
          have h1 := everyEscapeStarts_at p x (t ++ m.text ++ m.after)
            (by rw [hsplit, hpt] at hs; simpa using hs) hb
          have h2 := hleft p (x :: t) hpt (by simp)
          simp only [List.cons_append] at h2
          rw [h2] at h1
          exact absurd h1 (by simp)
      · refine ih m.after ?_ ?_ x hx
        · have hl : s.length = m.before.length + m.text.length + m.after.length := by
            rw [hsplit]; simp only [List.length_append]
          rw [hm] at hl
          simp only [List.length_cons] at hl
          omega
        · apply everyEscapeStarts_suffix (m.before ++ m.text)
          rw [← hsplit]
          exact hs

/-- C9 as stated fails: stripping this input leaves a complete escape sequence, because the
sequence removed by the single left-to-right pass stood between an escape character and the
text that completes it; the same holds on the raw bytes of the input. -/
theorem stripAnsi_counterexample :
    stripAnsi "\x1b\x1b[0m[0m".toList = "\x1b[0m".toList ∧
    Matches ansiColorsRegex "\x1b[0m".toList ∧
    (find ansiColorsRegex (stripAnsi "\x1b\x1b[0m[0m".toList)).isSome = true ∧
    stripAnsiBytes [0x1B, 0x1B, 0x5B, 0x30, 0x6D, 0x5B, 0x30, 0x6D] = [0x1B, 0x5B, 0x30, 0x6D] ∧
    runes [0x1B, 0x5B, 0x30, 0x6D] = "\x1b[0m".toList := by
  refine ⟨by decide, ?_, by decide, by decide, by decide⟩
  have h : matchAt ansiColorsRegex "\x1b[0m".toList = some ([], []) := by decide
  obtain ⟨m, hm, hp⟩ := matchAt_sound _ _ _ _ h
  rw [List.append_nil] at hm
  rw [← hm] at hp
  exact ⟨[], hp⟩

/-- On bytes that are not valid UTF-8 the removal of a sequence can join the bytes C2 and 9B
into U+009B: here the only escape character of the input starts a match, and the stripped
bytes are again a match. -/
theorem stripAnsiBytes_invalid_join :
    runes [0xC2, 0x1B, 0x5B, 0x30, 0x6D, 0x9B, 0x30] =
      [RuneError, '\x1b', '[', '0', 'm', RuneError, '0'] ∧
    everyEscapeStarts (runes [0xC2, 0x1B, 0x5B, 0x30, 0x6D, 0x9B, 0x30]) = true ∧
    stripAnsiBytes [0xC2, 0x1B, 0x5B, 0x30, 0x6D, 0x9B, 0x30] = [0xC2, 0x9B, 0x30] ∧
    runes [0xC2, 0x9B, 0x30] = ['\u009b', '0'] ∧
    (find ansiColorsRegex (runes [0xC2, 0x9B, 0x30])).isSome = true := by
  decide

/-- C9, amended. For every output that is valid UTF-8 (its bytes are the encoding of the
runes read from them) and in which every escape character (U+001B or U+009B) starts a match
of `ansiColorsRegex`: the bytes produced by the stripping step are valid UTF-8 again, the
stripped text contains no escape character, the expression is found nowhere in it, and no
substring of it matches the expression. -/
theorem stripAnsi_removes_all (output : Bytes) (hvalid : utf8Encode (runes output) = output)
    (h : everyEscapeStarts (runes output) = true) :
    utf8Encode (runes (stripAnsiBytes output)) = stripAnsiBytes output ∧
    runes (stripAnsiBytes output) = stripAnsi (runes output) ∧
    (∀ x ∈ runes (stripAnsiBytes output), isEscape x = false) ∧
    find ansiColorsRegex (runes (stripAnsiBytes output)) = none ∧
    ∀ pre m post, runes (stripAnsiBytes output) = pre ++ m ++ post →
      ¬ Matches ansiColorsRegex m := by
  have h1 := stripAnsi_no_escape (runes output).length (runes output) (le_refl _) h
  have hb : stripAnsiBytes output = utf8Encode (stripAnsi (runes output)) := by
    conv => lhs; rw [← hvalid]
    exact stripAnsiBytes_utf8Encode (runes output)
  have hr : runes (stripAnsiBytes output) = stripAnsi (runes output) := by
    rw [hb, runes_utf8Encode]
  rw [hr]
  exact ⟨hb.symm, rfl, h1, find_ansi_none _ h1,
    fun pre m post hs => not_matches_ansi_of_no_escape _ pre m post h1 hs⟩

set_option maxRecDepth 100000 in
/-- C9, amended, at the bytes of the colored input of Scenario 3. -/
theorem stripAnsi_removes_all_witness :
    runes (stripAnsiBytes (utf8Encode scenario3Colored)) = scenario3Plain ∧
    find ansiColorsRegex (runes (stripAnsiBytes (utf8Encode scenario3Colored))) = none :=
  ⟨(stripAnsi_removes_all (utf8Encode scenario3Colored) (by decide) (by decide)).2.1.trans
      (by decide),
    (stripAnsi_removes_all (utf8Encode scenario3Colored) (by decide) (by decide)).2.2.2.1⟩

/-! ## Adequacy of the iteration bound and completeness of the matcher -/

section
variable {R : Type}

theorem starLoop_congr (step : Str → Caps → (Str → Caps → Option R) → Option R)
    (hstep : ∀ s c (k k2 : Str → Caps → Option R),
      (∀ s1 c1, s1.length ≤ s.length → k s1 c1 = k2 s1 c1) → step s c k = step s c k2) :
    ∀ n s c (k k2 : Str → Caps → Option R),
      (∀ s1 c1, s1.length ≤ s.length → k s1 c1 = k2 s1 c1) →
      starLoop step n s c k = starLoop step n s c k2 := by
  intro n
  induction n with
  | zero => intro s c k k2 h; exact h s c (le_refl _)
  | succ n ih =>
    intro s c k k2 h
    unfold starLoop
    rw [hstep s c _ (fun s1 c1 => if s1.length < s.length then starLoop step n s1 c1 k2 else none)
      (fun s1 c1 hs1 => by
        by_cases hlt : s1.length < s.length
        · simp only [if_pos hlt]
          exact ih s1 c1 k k2 (fun s2 c2 hs2 => h s2 c2 (le_trans hs2 hs1))
        · simp only [if_neg hlt]),
      h s c (le_refl _)]

/-- The matcher only consults its continuation on texts no longer than its input. -/
theorem matchK_congr (r : Regex) : ∀ s c (k k2 : Str → Caps → Option R),
    (∀ s1 c1, s1.length ≤ s.length → k s1 c1 = k2 s1 c1) →
    matchK r s c k = matchK r s c k2 := by
  induction r with
  | chr x =>
    intro s c k k2 h
    cases s with
    | nil => rfl
    | cons y t => rw [matchK_chr_cons, matchK_chr_cons, h t c (by simp)]
  | cls neg rs =>
    intro s c k k2 h
    cases s with
    | nil => rfl
    | cons y t => rw [matchK_cls_cons, matchK_cls_cons, h t c (by simp)]
  | eps => intro s c k k2 h; exact h s c (le_refl _)
  | seq a b iha ihb =>
    intro s c k k2 h
    rw [matchK_seq, matchK_seq]
    exact iha s c _ _ (fun s1 c1 hs1 =>
      ihb s1 c1 k k2 (fun s2 c2 hs2 => h s2 c2 (le_trans hs2 hs1)))
  | alt a b iha ihb =>
    intro s c k k2 h
    rw [matchK_alt, matchK_alt, iha s c k k2 h, ihb s c k k2 h]
  | star a iha =>
    intro s c k k2 h
    rw [matchK_star, matchK_star]
    exact starLoop_congr (matchK a) iha _ s c k k2 h
  | grp i a iha =>
    intro s c k k2 h
    rw [matchK_grp, matchK_grp]
    exact iha s c _ _ (fun s1 c1 hs1 => h s1 _ hs1)

/-- One more iteration than the length of the text changes nothing. -/
theorem starLoop_succ (a : Regex) : ∀ n s c (k : Str → Caps → Option R), s.length ≤ n →
    starLoop (matchK a) (n + 1) s c k = starLoop (matchK a) n s c k := by
  intro n
  induction n with
  | zero =>
    intro s c k hn
    have : s = [] := List.length_eq_zero.1 (Nat.le_zero.1 hn)
    subst this
    have hnone : ∀ (c : Caps), matchK a [] c (fun s1 c1 =>
        if s1.length < ([] : Str).length then starLoop (matchK a) 0 s1 c1 k else none) = none := by
      intro c
      cases hm : matchK a [] c (fun s1 c1 =>
        if s1.length < ([] : Str).length then starLoop (matchK a) 0 s1 c1 k else none) with
      | none => rfl
      | some v =>
        obtain ⟨m, s1, c1, _, _, hk⟩ := matchK_sound a _ _ _ _ hm
        simp at hk
    unfold starLoop
    rw [hnone c]
  | succ n ih =>
    intro s c k hn
    rw [starLoop]
    conv => rhs; rw [starLoop]
    rw [matchK_congr a s c _
      (fun s1 c1 => if s1.length < s.length then starLoop (matchK a) n s1 c1 k else none)
      (fun s1 c1 _ => by
        by_cases hlt : s1.length < s.length
        · simp only [if_pos hlt]
          exact ih s1 c1 k (by omega)
        · simp only [if_neg hlt])]

/-- Any bound of at least the length of the text gives the result of the repetition. -/
theorem starLoop_fuel (a : Regex) (s : Str) (c : Caps) (k : Str → Caps → Option R) :
    ∀ d, starLoop (matchK a) (s.length + d) s c k = matchK (.star a) s c k := by
  intro d
  induction d with
  | zero => rfl
  | succ d ih => rw [← Nat.add_assoc, starLoop_succ a _ s c k (by omega), ih]

theorem starLoop_succ_isSome (step : Str → Caps → (Str → Caps → Option R) → Option R)
    (n : Nat) (s : Str) (c : Caps) (k : Str → Caps → Option R)
    (h : (step s c (fun s1 c1 =>
      if s1.length < s.length then starLoop step n s1 c1 k else none)).isSome = true) :
    (starLoop step (n + 1) s c k).isSome = true := by
  rw [starLoop]
  revert h
  cases step s c (fun s1 c1 => if s1.length < s.length then starLoop step n s1 c1 k else none)
  · intro h; exact absurd h (by simp)
  · intro _; rfl

/-- Completeness: a text that the expression matches declaratively is accepted by the
matcher whenever the continuation accepts the remaining text with every capture list. -/
theorem matchK_complete (r : Regex) (m : Str) (c c1 : Caps) (h : Parses r m c c1) :
    ∀ (c0 : Caps) (rest : Str) (k : Str → Caps → Option R),
      (∀ c2, (k rest c2).isSome = true) → (matchK r (m ++ rest) c0 k).isSome = true := by
  induction h with
  | chr x c =>
    intro c0 rest k hk
    rw [List.singleton_append, matchK_chr_cons, if_pos rfl]
    exact hk c0
  | cls neg rs x c hx =>
    intro c0 rest k hk
    rw [List.singleton_append, matchK_cls_cons, hx, if_pos rfl]
    exact hk c0
  | eps c => intro c0 rest k hk; exact hk c0
  | seq _ _ ih1 ih2 =>
    intro c0 rest k hk
    rw [matchK_seq, List.append_assoc]
    exact ih1 c0 _ _ (fun c2 => ih2 c2 rest k hk)
  | altL b _ ih =>
    intro c0 rest k hk
    rw [matchK_alt]
    have := ih c0 rest k hk
    cases hm : matchK _ _ _ k with
    | none => rw [hm] at this; exact absurd this (by simp)
    | some v => rfl
  | altR a _ ih =>
    intro c0 rest k hk
    rw [matchK_alt]
    cases hm : matchK a _ _ k with
    | none => exact ih c0 rest k hk
    | some v => rfl
  | starNil a c =>
    intro c0 rest k hk
    rw [List.nil_append, matchK_star]
    cases hl : rest.length with
    | zero => exact hk c0
    | succ n =>
      unfold starLoop
      split
      · rfl
      · exact hk c0
  | @starCons a m1 m2 c c1 c2 _ _ ih1 ih2 =>
    intro c0 rest k hk
    cases m1 with
    | nil => rw [List.nil_append]; exact ih2 c0 rest k hk
    | cons x t =>
      rw [matchK_star]
      have e : (x :: t ++ m2 ++ rest).length = (t ++ (m2 ++ rest)).length + 1 := by
        simp only [List.cons_append, List.length_cons, List.append_assoc]
      have e2 : x :: t ++ m2 ++ rest = (x :: t) ++ (m2 ++ rest) := by
        simp only [List.cons_append, List.append_assoc]
      rw [e, e2]
      apply starLoop_succ_isSome
      apply ih1 c0 (m2 ++ rest)
      intro c3
      have hlt : (m2 ++ rest).length < ((x :: t) ++ (m2 ++ rest)).length := by
        simp only [List.cons_append, List.length_cons, List.length_append]; omega
      have hlen : (t ++ (m2 ++ rest)).length = (m2 ++ rest).length + t.length := by
        simp only [List.length_append]; omega
      simp only [if_pos hlt]
      rw [hlen, starLoop_fuel]
      exact ih2 c3 rest k hk
  | grp i _ ih =>
    intro c0 rest k hk
    rw [matchK_grp]
    exact ih c0 rest _ (fun c2 => hk _)
end

/-- The search succeeds exactly when some substring of the text matches the expression. -/
theorem find_isSome_iff (re : Regex) (s : Str) :
    (find re s).isSome = true ↔ ∃ pre m post, s = pre ++ m ++ post ∧ Matches re m := by
  constructor
  · intro h
    cases hf : find re s with
    | none => rw [hf] at h; exact absurd h (by simp)
    | some mt =>
      obtain ⟨hs, hp, _, _⟩ := find_some re s mt hf
      exact ⟨mt.before, mt.text, mt.after, hs, mt.caps, hp⟩
  · intro ⟨pre, m, post, hs, c, hp⟩
    cases hf : find re s with
    | some mt => rfl
    | none =>
      exfalso
      have h1 := find_none re s hf pre (m ++ post) (by rw [hs, List.append_assoc])
      have h2 := matchK_complete re m [] c hp [] post (fun s1 c1 => some (s1, c1))
        (fun c2 => rfl)
      unfold matchAt at h1
      rw [h1] at h2
      exact absurd h2 (by simp)

/-- One more round than the length of the text changes nothing in the stripping step. -/
theorem replaceAll_ansi_succ : ∀ (n : Nat) (s : Str), s.length ≤ n →
    ReplaceAllEmpty ansiColorsRegex (n + 1) s = ReplaceAllEmpty ansiColorsRegex n s := by
  intro n
  induction n with
  | zero =>
    intro s hn
    have : s = [] := List.length_eq_zero.1 (Nat.le_zero.1 hn)
    subst this
    rfl
  | succ n ih =>
    intro s hn
    rw [ReplaceAllEmpty]
    conv => rhs; rw [ReplaceAllEmpty]
    cases hf : find ansiColorsRegex s with
    | none => rfl
    | some m =>
      simp only
      obtain ⟨hsplit, hp, _, _⟩ := find_some _ s m hf
      obtain ⟨y, u, hm, _⟩ := parses_ansi_head _ _ _ hp
      have hl : s.length = m.before.length + m.text.length + m.after.length := by
        rw [hsplit]; simp only [List.length_append]
      rw [hm] at hl
      simp only [List.length_cons] at hl
      rw [ih m.after (by omega)]

/-- Any number of rounds of at least the length of the text gives the stripped text. -/
theorem replaceAll_ansi_fuel (s : Str) :
    ∀ d, ReplaceAllEmpty ansiColorsRegex (s.length + d) s = stripAnsi s := by
  intro d
  induction d with
  | zero => rfl
  | succ d ih => rw [← Nat.add_assoc, replaceAll_ansi_succ _ s (by omega), ih]

/-- One more round than the number of runes changes nothing in the stripping step on
bytes. -/
theorem replaceAllRunes_ansi_succ : ∀ (n : Nat) (ts : List (Char × Bytes)), ts.length ≤ n →
    ReplaceAllEmptyRunes ansiColorsRegex (n + 1) ts =
      ReplaceAllEmptyRunes ansiColorsRegex n ts := by
  intro n
  induction n with
  | zero =>
    intro ts hn
    have : ts = [] := List.length_eq_zero.1 (Nat.le_zero.1 hn)
    subst this
    rfl
  | succ n ih =>
    intro ts hn
    rw [ReplaceAllEmptyRunes]
    conv => rhs; rw [ReplaceAllEmptyRunes]
    cases hf : find ansiColorsRegex (ts.map (fun t => t.1)) with
    | none => rfl
    | some m =>
      simp only
      obtain ⟨_, hp, _, _⟩ := find_some _ _ m hf
      obtain ⟨y, u, hm, _⟩ := parses_ansi_head _ _ _ hp
      rw [ih _ (by rw [List.length_drop, hm, List.length_cons]; omega)]

end Fluentbit
